import Mathlib

/-!
Shallow embedding of the cast-to-markdown converter (the Next.js route
`convert-cast-to-markdown/route.ts` embedded in the repository), together
with proofs settling the frozen claims about it.

JavaScript strings are modelled as `String`/`List Char` (Unicode scalar
values); all characters the code manipulates are in the Basic Multilingual
Plane, where UTF-16 code units and scalar values coincide.  JavaScript
numbers are modelled as `ℚ` (exact rationals); no claim below depends on
binary floating-point rounding.
-/

set_option maxRecDepth 40000

namespace Cast2MD

/-- The JavaScript `\s` / `trim()` whitespace set (the members that can
occur in this pipeline's data; exotic Unicode space separators are included
for faithfulness of `trim`). -/
def jsWs (c : Char) : Bool :=
  c = ' ' ∨ c = '\t' ∨ c = '\n' ∨ c = '\r' ∨ c = '\x0b' ∨ c = '\x0c' ∨
  c = ' ' ∨ c = ' ' ∨ (0x2000 ≤ c.toNat ∧ c.toNat ≤ 0x200a) ∨
  c = ' ' ∨ c = ' ' ∨ c = ' ' ∨ c = ' ' ∨
  c = '　' ∨ c = '﻿'

/-- `text.startsWith pat` on character lists. -/
def startsList : List Char → List Char → Bool
  | _, [] => true
  | [], _ :: _ => false
  | c :: cs, p :: ps => c = p && startsList cs ps

/-- JavaScript `String.prototype.includes`: `pat` occurs as a contiguous
substring of `text`. -/
def containsList (text pat : List Char) : Bool :=
  startsList text pat ||
    match text with
    | [] => false
    | _ :: cs => containsList cs pat

/-- `String.prototype.includes` on `String`. -/
def strIncludes (s pat : String) : Bool :=
  containsList s.toList pat.toList

/-- Drop leading JS whitespace. -/
def dropWsL (cs : List Char) : List Char := cs.dropWhile (fun c => jsWs c)

/-- JavaScript `String.prototype.trim` on character lists. -/
def jsTrimList (cs : List Char) : List Char :=
  ((dropWsL cs).reverse.dropWhile (fun c => jsWs c)).reverse

/-- JavaScript `String.prototype.trim`. -/
def jsTrim (s : String) : String := ⟨jsTrimList s.toList⟩

/-- `text.split(sep)` for a single-character separator, JS semantics:
never returns an empty list; empty pieces are kept. -/
def splitChList (sep : Char) : List Char → List (List Char)
  | [] => [[]]
  | c :: cs =>
    if c = sep then [] :: splitChList sep cs
    else
      match splitChList sep cs with
      | [] => [[c]]
      | p :: ps => (c :: p) :: ps

/-- `s.split(sep)` (single-character separator) on `String`. -/
def jsSplitChar (sep : Char) (s : String) : List String :=
  (splitChList sep s.toList).map (fun l => ⟨l⟩)

/-- `text.endsWith pat` on strings. -/
def endsList (text pat : List Char) : Bool :=
  startsList text.reverse pat.reverse

theorem splitChList_ne_nil (sep : Char) (cs : List Char) :
    splitChList sep cs ≠ [] := by
  induction cs with
  | nil => simp [splitChList]
  | cons c cs ih =>
    simp only [splitChList]
    split
    · simp
    · cases h : splitChList sep cs with
      | nil => simp
      | cons p ps => simp

theorem jsSplitChar_ne_nil (sep : Char) (s : String) :
    jsSplitChar sep s ≠ [] := by
  simp [jsSplitChar, splitChList_ne_nil]

/-! ## JSON values and `JSON.parse`

The route calls the host `JSON.parse` on the header line and on each event
line.  `Json` is the exact value grammar; `Json.parse` is a recursive
descent parser for RFC 8259 JSON (the grammar `JSON.parse` accepts),
returning `none` exactly when the host parser would throw.  Numbers are
kept as exact rationals. -/

inductive Json where
  | null : Json
  | bool (b : Bool) : Json
  | num (q : ℚ) : Json
  | str (s : String) : Json
  | arr (elts : List Json) : Json
  | obj (fields : List (String × Json)) : Json

/-- Insert a key/value into an object's field list the way JS property
assignment does while `JSON.parse` builds an object: a repeated key keeps
its first position but takes the last value. -/
def objInsert (k : String) (v : Json) : List (String × Json) → List (String × Json)
  | [] => [(k, v)]
  | (k', v') :: rest =>
    if k' = k then (k', v) :: rest else (k', v') :: objInsert k v rest

/-- JSON's own whitespace (inside documents): space, tab, LF, CR. -/
def jsonWs (c : Char) : Bool :=
  c = ' ' ∨ c = '\t' ∨ c = '\n' ∨ c = '\r'

def skipJsonWs (cs : List Char) : List Char := cs.dropWhile (fun c => jsonWs c)

def isDigit (c : Char) : Bool := '0' ≤ c ∧ c ≤ '9'

def digitVal (c : Char) : Nat := c.toNat - '0'.toNat

def isHexDigit (c : Char) : Bool :=
  isDigit c ∨ ('a' ≤ c ∧ c ≤ 'f') ∨ ('A' ≤ c ∧ c ≤ 'F')

def hexVal (c : Char) : Nat :=
  if isDigit c then digitVal c
  else if 'a' ≤ c ∧ c ≤ 'f' then c.toNat - 'a'.toNat + 10
  else c.toNat - 'A'.toNat + 10

/-- Read a run of decimal digits, returning its value, its length and the
rest of the input. -/
def readDigits (acc : Nat) : List Char → Nat × Nat × List Char
  | [] => (acc, 0, [])
  | c :: cs =>
    if isDigit c then
      let (v, n, rest) := readDigits (acc * 10 + digitVal c) cs
      (v, n + 1, rest)
    else (acc, 0, c :: cs)

/-- Parse a JSON string body after the opening quote.  `\uXXXX` escapes
follow `JSON.parse`: surrogate pairs combine; a lone surrogate (which a
Lean `Char` cannot hold) is modelled as U+FFFD. -/
def parseStringBody : Nat → List Char → Option (List Char × List Char)
  | 0, _ => none
  | _, [] => none
  | fuel + 1, c :: cs =>
    if c = '"' then some ([], cs)
    else if c = '\\' then
      match cs with
      | [] => none
      | e :: cs' =>
        let simpleEsc : Option Char :=
          if e = '"' then some '"'
          else if e = '\\' then some '\\'
          else if e = '/' then some '/'
          else if e = 'b' then some '\x08'
          else if e = 'f' then some '\x0c'
          else if e = 'n' then some '\n'
          else if e = 'r' then some '\r'
          else if e = 't' then some '\t'
          else none
        match simpleEsc with
        | some d =>
          match parseStringBody fuel cs' with
          | some (body, rest) => some (d :: body, rest)
          | none => none
        | none =>
          if e = 'u' then
            match cs' with
            | h1 :: h2 :: h3 :: h4 :: cs'' =>
              if isHexDigit h1 ∧ isHexDigit h2 ∧ isHexDigit h3 ∧ isHexDigit h4 then
                let n := ((hexVal h1 * 16 + hexVal h2) * 16 + hexVal h3) * 16 + hexVal h4
                if 0xd800 ≤ n ∧ n ≤ 0xdbff then
                  -- high surrogate: try to combine with a following \uDC00-\uDFFF
                  match cs'' with
                  | '\\' :: 'u' :: g1 :: g2 :: g3 :: g4 :: cs''' =>
                    if isHexDigit g1 ∧ isHexDigit g2 ∧ isHexDigit g3 ∧ isHexDigit g4 then
                      let m := ((hexVal g1 * 16 + hexVal g2) * 16 + hexVal g3) * 16 + hexVal g4
                      if 0xdc00 ≤ m ∧ m ≤ 0xdfff then
                        let cp := 0x10000 + (n - 0xd800) * 0x400 + (m - 0xdc00)
                        match parseStringBody fuel cs''' with
                        | some (body, rest) => some (Char.ofNat cp :: body, rest)
                        | none => none
                      else
                        match parseStringBody fuel cs'' with
                        | some (body, rest) => some ('�' :: body, rest)
                        | none => none
                    else
                      match parseStringBody fuel cs'' with
                      | some (body, rest) => some ('�' :: body, rest)
                      | none => none
                  | _ =>
                    match parseStringBody fuel cs'' with
                    | some (body, rest) => some ('�' :: body, rest)
                    | none => none
                else if 0xdc00 ≤ n ∧ n ≤ 0xdfff then
                  match parseStringBody fuel cs'' with
                  | some (body, rest) => some ('�' :: body, rest)
                  | none => none
                else
                  match parseStringBody fuel cs'' with
                  | some (body, rest) => some (Char.ofNat n :: body, rest)
                  | none => none
              else none
            | _ => none
          else none
    else if c.toNat < 0x20 then none  -- raw control characters are invalid
    else
      match parseStringBody fuel cs with
      | some (body, rest) => some (c :: body, rest)
      | none => none

/-- Parse a JSON number starting at the current position (first char is a
digit or `-`). -/
def parseNumber (cs : List Char) : Option (ℚ × List Char) :=
  let (neg, cs₁) :=
    match cs with
    | '-' :: rest => (true, rest)
    | _ => (false, cs)
  match cs₁ with
  | [] => none
  | c :: _ =>
    let leadZero : Bool :=
      match cs₁ with
      | z :: d :: _ => z = '0' && isDigit d
      | _ => false
    if ¬ isDigit c then none
    else if leadZero then
      none  -- leading zeros are invalid JSON
    else
      let (ip, _, cs₂) := readDigits 0 cs₁
      let (frac, fracLen, cs₃) :=
        match cs₂ with
        | '.' :: d :: rest =>
          if isDigit d then
            let (fv, fn, r) := readDigits (digitVal d) rest
            (fv, fn + 1, r)
          else (0, 0, cs₂)
        | _ => (0, 0, cs₂)
      let badDot : Bool :=
        match cs₂ with
        | '.' :: d :: _ => ¬ isDigit d
        | ['.'] => true
        | _ => false
      if badDot then
        none  -- a dot must be followed by a digit
      else
        let expRes : Option (Int × List Char) :=
          match cs₃ with
          | e :: rest =>
            if e = 'e' ∨ e = 'E' then
              let (esign, rest') :=
                match rest with
                | '+' :: r => ((1 : Int), r)
                | '-' :: r => ((-1 : Int), r)
                | _ => ((1 : Int), rest)
              match rest' with
              | d :: _ =>
                if isDigit d then
                  let (ev, _, r) := readDigits 0 rest'
                  some (esign * (ev : Int), r)
                else none
              | [] => none
            else some (0, cs₃)
          | [] => some (0, [])
        match expRes with
        | none => none
        | some (ex, cs₄) =>
          let base : ℚ := (ip : ℚ) + (frac : ℚ) / ((10 : ℚ) ^ fracLen)
          let signed : ℚ := if neg then -base else base
          let valued : ℚ :=
            if 0 ≤ ex then signed * (10 : ℚ) ^ ex.toNat
            else signed / ((10 : ℚ) ^ (-ex).toNat)
          some (valued, cs₄)

mutual

/-- Recursive-descent JSON value parser (fuel-indexed; the fuel only pays
for nesting and is always sufficient at `length + 1`). -/
def parseVal : Nat → List Char → Option (Json × List Char)
  | 0, _ => none
  | fuel + 1, cs =>
    match skipJsonWs cs with
    | [] => none
    | c :: cs' =>
      if c = 'n' then
        if startsList cs' ['u', 'l', 'l'] then some (Json.null, cs'.drop 3) else none
      else if c = 't' then
        if startsList cs' ['r', 'u', 'e'] then some (Json.bool true, cs'.drop 3) else none
      else if c = 'f' then
        if startsList cs' ['a', 'l', 's', 'e'] then some (Json.bool false, cs'.drop 4)
        else none
      else if c = '"' then
        match parseStringBody (cs'.length + 1) cs' with
        | some (body, rest) => some (Json.str ⟨body⟩, rest)
        | none => none
      else if c = '[' then
        match skipJsonWs cs' with
        | ']' :: rest => some (Json.arr [], rest)
        | _ => parseArrElems fuel cs' []
      else if c.toNat = 0x7b then  -- opening brace
        match skipJsonWs cs' with
        | d :: rest =>
          if d.toNat = 0x7d then some (Json.obj [], rest)
          else parseObjFields fuel cs' []
        | [] => none
      else if c = '-' ∨ isDigit c then
        match parseNumber (c :: cs') with
        | some (q, rest) => some (Json.num q, rest)
        | none => none
      else none

/-- Parse the remaining elements of a non-empty array (position is just
after `[` or after a `,`). -/
def parseArrElems : Nat → List Char → List Json → Option (Json × List Char)
  | 0, _, _ => none
  | fuel + 1, cs, acc =>
    match parseVal fuel cs with
    | none => none
    | some (v, rest) =>
      match skipJsonWs rest with
      | ',' :: rest' => parseArrElems fuel rest' (acc ++ [v])
      | ']' :: rest' => some (Json.arr (acc ++ [v]), rest')
      | _ => none

/-- Parse the remaining fields of a non-empty object (position is just
after the opening brace or after a `,`). -/
def parseObjFields : Nat → List Char → List (String × Json) → Option (Json × List Char)
  | 0, _, _ => none
  | fuel + 1, cs, acc =>
    match skipJsonWs cs with
    | '"' :: cs' =>
      match parseStringBody (cs'.length + 1) cs' with
      | none => none
      | some (key, rest) =>
        match skipJsonWs rest with
        | ':' :: rest' =>
          match parseVal fuel rest' with
          | none => none
          | some (v, rest'') =>
            let acc' := objInsert ⟨key⟩ v acc
            match skipJsonWs rest'' with
            | ',' :: rest''' => parseObjFields fuel rest''' acc'
            | d :: rest''' =>
              if d.toNat = 0x7d then some (Json.obj acc', rest''') else none
            | [] => none
        | _ => none
    | _ => none

end

/-- `JSON.parse`: parse one JSON value, allowing surrounding whitespace,
rejecting trailing garbage.  `none` models a thrown `SyntaxError`. -/
def Json.parse (s : String) : Option Json :=
  let cs := s.toList
  match parseVal (cs.length + 1) cs with
  | none => none
  | some (v, rest) => if skipJsonWs rest = [] then some v else none

/-! ## JavaScript values reachable in this code

After `JSON.parse`, the route reads `event[0]`, `event[1]`, `event[2]` and
header properties without any shape check, so the values flowing through
the pipeline are JSON values or `undefined`. -/

inductive JsVal where
  | undef : JsVal
  | val (j : Json) : JsVal

/-- Is this value `undefined`? -/
def JsVal.isUndef : JsVal → Bool
  | .undef => true
  | .val _ => false

/-- Strict equality of a JS value with a string literal (`v === "o"`). -/
def strictEqStr (v : JsVal) (s : String) : Bool :=
  match v with
  | .val (.str t) => t = s
  | _ => false

/-- Property lookup on an object field list (last write wins is already
ensured by `objInsert`). -/
def fieldLookup (fields : List (String × Json)) (k : String) : JsVal :=
  match fields with
  | [] => .undef
  | (k', v) :: rest => if k' = k then .val v else fieldLookup rest k

/-- `x[i]` for a numeric index, JS semantics: arrays index their elements,
strings index their characters (BMP scalars = UTF-16 units for all data
here), objects look up the decimal-string key, and every other non-null
base yields `undefined`.  (Indexing `null` throws; the caller handles that
case separately.) -/
def jsIndex (j : Json) (i : Nat) : JsVal :=
  match j with
  | .arr elts =>
    match elts.get? i with
    | some v => .val v
    | none => .undef
  | .str s =>
    match s.toList.get? i with
    | some c => .val (.str ⟨[c]⟩)
    | none => .undef
  | .obj fields => fieldLookup fields (toString i)
  | _ => (.undef)

/-- `x.name` property access for the header fields: only objects expose
these named properties; the string/array built-ins read here are none of
the header field names, so every other non-null base yields `undefined`. -/
def jsGetField (j : Json) (k : String) : JsVal :=
  match j with
  | .obj fields => fieldLookup fields k
  | _ => (.undef)

/-- JS truthiness of the values reachable here (`NaN` cannot come out of
`JSON.parse`). -/
def jsTruthy : JsVal → Bool
  | .undef => false
  | .val .null => false
  | .val (.bool b) => b
  | .val (.num q) => q ≠ 0
  | .val (.str s) => s ≠ ""
  | .val (.arr _) => true
  | .val (.obj _) => true

/-- Decimal rendering of a rational whose denominator is 1 (the integers).
A non-integer JS number prints in shortest-round-trip float notation,
which an exact-rational model cannot reproduce; it is rendered here as
`num/den`.  No claim depends on number formatting. -/
def numToString (q : ℚ) : String :=
  if q.den = 1 then toString q.num
  else toString q.num ++ "/" ++ toString q.den

mutual

/-- JS `String(x)` / template-literal coercion of a JSON value. -/
def jsonToString : Json → String
  | .null => "null"
  | .bool b => if b then "true" else "false"
  | .num q => numToString q
  | .str s => s
  | .arr elts => jsonArrJoin elts
  | .obj _ => "[object Object]"

/-- `Array.prototype.join(',')` as used by `String(array)`: `null`
elements coerce to the empty string. -/
def jsonArrJoin : List Json → String
  | [] => ""
  | [x] =>
    match x with
    | .null => ""
    | x => jsonToString x
  | x :: xs =>
    (match x with
     | .null => ""
     | x => jsonToString x) ++ "," ++ jsonArrJoin xs

end

/-- JS string coercion (`${v}`, `s += v`) of a value. -/
def jsValToString : JsVal → String
  | .undef => "undefined"
  | .val j => jsonToString j

/-- `ToNumber` coercion restricted to the values reachable here; `none`
models `NaN`.  (`Number(string)` accepts decimal literals; other string
forms give `NaN` — hex literals and infinities do not occur in this
pipeline's data and are modelled as `NaN` with the other non-numeric
strings.) -/
def jsToNumber : JsVal → Option ℚ
  | .undef => none
  | .val .null => some 0
  | .val (.bool b) => some (if b then 1 else 0)
  | .val (.num q) => some q
  | .val (.str s) =>
    let t := jsTrim s
    if t = "" then some 0
    else
      match parseNumber t.toList with
      | some (q, []) => some q
      | _ => none
  | .val (.arr []) => some 0
  | .val (.arr [x]) =>
    match x with
    | .null => some 0
    | .num q => some q
    | _ => none
  | .val (.arr (_ :: _ :: _)) => none
  | .val (.obj _) => none

/-! ## Recording parse: the per-line event loop

```
for (let i = 1; i < lines.length; i++) {
  if (lines[i].trim()) {
    try {
      const event = JSON.parse(lines[i]);
      events.push({ time: event[0], type: event[1], data: event[2] });
    } catch (e) { ... skip ... }
  }
}
```
The only way the `try` block throws after a successful parse is
`event[0]` on `null` (a `TypeError`); every other JSON value indexes
without throwing and is pushed unchecked. -/

structure JsEvent where
  time : JsVal
  type : JsVal
  data : JsVal

/-- The event built from one successfully parsed line. -/
def eventOfJson (j : Json) : JsEvent :=
  ⟨jsIndex j 0, jsIndex j 1, jsIndex j 2⟩

/-- The body of the loop for one line, as a partial function: `none` when
the line is blank, fails to parse, or parses to `null`. -/
def evLine (l : String) : Option JsEvent :=
  if jsTrim l = "" then none
  else
    match Json.parse l with
    | none => none
    | some .null => none
    | some j => some (eventOfJson j)

/-- The event loop over the lines after the header (mirrors the `for`
loop's pushes). -/
def parseEvents : List String → List JsEvent
  | [] => []
  | l :: ls =>
    if jsTrim l = "" then parseEvents ls
    else
      match Json.parse l with
      | none => parseEvents ls
      | some .null => parseEvents ls
      | some j => eventOfJson j :: parseEvents ls

/-- The output-aggregation loop:
`for (const event of events) if (event.type === 'o') terminalOutput += event.data`. -/
def aggregateOutput (events : List JsEvent) : String :=
  events.foldl (fun acc e => if strictEqStr e.type "o" then acc ++ jsValToString e.data else acc) ""

/-! ## `stripAnsiCodes`: the escape/noise stripper

Each `clean.replace(regex, '')` pass is embedded as a deterministic
scanner.  Every pattern used has character classes disjoint from what
follows them, so greedy matching without backtracking computes exactly the
JS regex match at each position; `replaceAll` scans left to right and
resumes after each match, as `String.replace` with the `g` flag does.
All patterns match at least one character. -/

/-- Remove every match of `m` (a matcher returning the match length at the
current position), scanning left to right without rescanning removed
text — the semantics of `replace(/…/g, '')`.  Structural recursion on a
fuel that bounds the input length (so the kernel can evaluate it); the
fuel never runs out. -/
def stripAllF (m : List Char → Option Nat) : Nat → List Char → List Char
  | _, [] => []
  | 0, l => l
  | fuel + 1, c :: cs =>
    match m (c :: cs) with
    | some (k + 1) => stripAllF m fuel (cs.drop k)
    | _ => c :: stripAllF m fuel cs

def stripAll (m : List Char → Option Nat) (cs : List Char) : List Char :=
  stripAllF m cs.length cs

def isAsciiLetter (c : Char) : Bool := ('A' ≤ c ∧ c ≤ 'Z') ∨ ('a' ≤ c ∧ c ≤ 'z')

def isUpperAlpha (c : Char) : Bool := 'A' ≤ c ∧ c ≤ 'Z'

def isLowerAlpha (c : Char) : Bool := 'a' ≤ c ∧ c ≤ 'z'

def isCsiParam (c : Char) : Bool := isDigit c ∨ c = ';' ∨ c = '?'

def isDigitSemi (c : Char) : Bool := isDigit c ∨ c = ';'

def isEscPunct (c : Char) : Bool :=
  c = '[' ∨ c = ']' ∨ c = '(' ∨ c = ')' ∨ c = '#' ∨ c = ';' ∨ c = '?'

/-- Scan `[^\x07\x1B]*` then `(?:\x07|\x1B\\)`, returning the scanned
length (terminator included). -/
def oscBody : List Char → Option Nat
  | [] => none
  | c :: cs =>
    if c = '\x07' then some 1
    else if c = '\x1b' then
      match cs with
      | '\\' :: _ => some 2
      | _ => none
    else (oscBody cs).map (· + 1)

/-- Scan `[^\x07]*\x07`, returning the scanned length (BEL included). -/
def scanToBel : List Char → Option Nat
  | [] => none
  | c :: cs => if c = '\x07' then some 1 else (scanToBel cs).map (· + 1)

/-- `\x1B\][^\x07\x1B]*(?:\x07|\x1B\\)` -/
def oscEscM : List Char → Option Nat
  | c :: cs =>
    if c = '\x1b' then
      match cs with
      | ']' :: rest => (oscBody rest).map (· + 2)
      | _ => none
    else none
  | [] => none

/-- `\][0-9]{1,4};[^\x07]*\x07` -/
def oscNumM : List Char → Option Nat
  | c :: rest =>
    if c = ']' then
      let ds := (rest.takeWhile isDigit).length
      if 1 ≤ ds ∧ ds ≤ 4 then
        match rest.drop ds with
        | ';' :: rest' => (scanToBel rest').map (· + ds + 2)
        | _ => none
      else none
    else none
  | [] => none

/-- `\x1B\[[0-9;?]*[A-Za-z]` -/
def csiEscM : List Char → Option Nat
  | c :: cs =>
    if c = '\x1b' then
      match cs with
      | '[' :: rest =>
        let n := (rest.takeWhile isCsiParam).length
        match rest.drop n with
        | d :: _ => if isAsciiLetter d then some (n + 3) else none
        | [] => none
      | _ => none
    else none
  | [] => none

/-- `\[[\?><!][0-9;]*[A-Za-z]` -/
def brackSeq1M : List Char → Option Nat
  | c0 :: cs =>
    if c0 = '[' then
      match cs with
      | c :: rest =>
        if c = '?' ∨ c = '>' ∨ c = '<' ∨ c = '!' then
          let n := (rest.takeWhile isDigitSemi).length
          match rest.drop n with
          | d :: _ => if isAsciiLetter d then some (n + 3) else none
          | [] => none
        else none
      | [] => none
    else none
  | [] => none

/-- `\x1B[=>]` -/
def escEqM : List Char → Option Nat
  | c0 :: cs =>
    if c0 = '\x1b' then
      match cs with
      | c :: _ => if c = '=' ∨ c = '>' then some 2 else none
      | [] => none
    else none
  | [] => none

/-- `\x1B[\[\]()#;?]*[0-9;]*[A-Za-z@]` -/
def escGenM : List Char → Option Nat
  | c0 :: rest =>
    if c0 = '\x1b' then
      let a := (rest.takeWhile isEscPunct).length
      let rest1 := rest.drop a
      let b := (rest1.takeWhile isDigitSemi).length
      match rest1.drop b with
      | d :: _ => if isAsciiLetter d ∨ d = '@' then some (a + b + 2) else none
      | [] => none
    else none
  | [] => none

/-- `\x1B\]1337;[^\x07]*\x07` -/
def iterm1337M : List Char → Option Nat
  | c0 :: cs =>
    if c0 = '\x1b' then
      match cs with
      | ']' :: '1' :: '3' :: '3' :: '7' :: ';' :: rest => (scanToBel rest).map (· + 7)
      | _ => none
    else none
  | [] => none

/-- `\x1B\]133;[^\x07]*\x07` -/
def iterm133M : List Char → Option Nat
  | c0 :: cs =>
    if c0 = '\x1b' then
      match cs with
      | ']' :: '1' :: '3' :: '3' :: ';' :: rest => (scanToBel rest).map (· + 6)
      | _ => none
    else none
  | [] => none

/-- `\]133;[A-Z];?[0-9]*` -/
def m133M : List Char → Option Nat
  | c0 :: cs =>
    if c0 = ']' then
      match cs with
      | '1' :: '3' :: '3' :: ';' :: c :: rest =>
        if isUpperAlpha c then
          match rest with
          | ';' :: r => some (7 + (r.takeWhile isDigit).length)
          | _ => some (6 + (rest.takeWhile isDigit).length)
        else none
      | _ => none
    else none
  | [] => none

/-- `\]1337;[^\n]*` -/
def m1337M : List Char → Option Nat
  | c0 :: cs =>
    if c0 = ']' then
      match cs with
      | '1' :: '3' :: '3' :: '7' :: ';' :: rest =>
        some (6 + (rest.takeWhile (· ≠ '\n')).length)
      | _ => none
    else none
  | [] => none

/-- `\[[\?>][0-9;]+[hlm]` -/
def brackSeq2M : List Char → Option Nat
  | c0 :: cs =>
    if c0 = '[' then
      match cs with
      | c :: rest =>
        if c = '?' ∨ c = '>' then
          let n := (rest.takeWhile isDigitSemi).length
          if 1 ≤ n then
            match rest.drop n with
            | d :: _ => if d = 'h' ∨ d = 'l' ∨ d = 'm' then some (n + 3) else none
            | [] => none
          else none
        else none
      | [] => none
    else none
  | [] => none

/-- `\[<[0-9;]+[A-Za-z]` -/
def brackLtM : List Char → Option Nat
  | c0 :: cs =>
    if c0 = '[' then
      match cs with
      | '<' :: rest =>
        let n := (rest.takeWhile isDigitSemi).length
        if 1 ≤ n then
          match rest.drop n with
          | d :: _ => if isAsciiLetter d then some (n + 3) else none
          | [] => none
        else none
      | _ => none
    else none
  | [] => none

/-- `[⠀-⣿]` (and the identical `[⠀-⣿]` pass). -/
def brailleM : List Char → Option Nat
  | c :: _ => if 0x2800 ≤ c.toNat ∧ c.toNat ≤ 0x28ff then some 1 else none
  | [] => none

/-- `[\x00-\x08\x0B-\x0C\x0E-\x1F\x7F]` -/
def ctrlM : List Char → Option Nat
  | c :: _ =>
    if c.toNat ≤ 8 ∨ c.toNat = 0xb ∨ c.toNat = 0xc ∨
        (0xe ≤ c.toNat ∧ c.toNat ≤ 0x1f) ∨ c.toNat = 0x7f then some 1
    else none
  | [] => none

/-- `\r` -/
def crM : List Char → Option Nat
  | c :: _ => if c = '\r' then some 1 else none
  | [] => none

/-- All sixteen character-level `replace(...,'')` passes, in source
order. -/
def stripControlSequences (cs : List Char) : List Char :=
  let s1 := stripAll oscEscM cs
  let s2 := stripAll oscNumM s1
  let s3 := stripAll csiEscM s2
  let s4 := stripAll brackSeq1M s3
  let s5 := stripAll escEqM s4
  let s6 := stripAll escGenM s5
  let s7 := stripAll iterm1337M s6
  let s8 := stripAll iterm133M s7
  let s9 := stripAll m133M s8
  let s10 := stripAll m1337M s9
  let s11 := stripAll brackSeq2M s10
  let s12 := stripAll brackLtM s11
  let s13 := stripAll brailleM s12
  let s14 := stripAll brailleM s13
  let s15 := stripAll ctrlM s14
  stripAll crM s15

/-- The prompt-marker class `[➜→✗]`. -/
def isPromptMarker (c : Char) : Bool := c = '➜' ∨ c = '→' ∨ c = '✗'

/-- `/^%\s+➜\s+\S+\s+(.+)$/.exec(line)`: on success, the captured group
(the trailing command text).  The only backtracking the JS engine needs
here is shrinking the final `\s+` by one when `.+` would otherwise be
empty; that case is reproduced exactly. -/
def promptCmdCapture (cs : List Char) : Option (List Char) :=
  match cs with
  | c0 :: rest =>
    if c0 = '%' then
      let w1 := (rest.takeWhile jsWs).length
      if w1 = 0 then none
      else
        match rest.drop w1 with
        | '➜' :: rest1 =>
          let w2 := (rest1.takeWhile jsWs).length
          if w2 = 0 then none
          else
            let rest2 := rest1.drop w2
            let nw := (rest2.takeWhile (fun c => ¬ jsWs c)).length
            if nw = 0 then none
            else
              let rest3 := rest2.drop nw
              let wn := (rest3.takeWhile jsWs).length
              if wn = 0 then none
              else if wn < rest3.length then some (rest3.drop wn)
              else if 2 ≤ wn then some (rest3.drop (wn - 1))
              else none
        | _ => none
    else none
  | [] => none

/-- `/^%\s+➜\s+\S+\s*$/.test(line)` -/
def justPromptTest (cs : List Char) : Bool :=
  match cs with
  | c0 :: rest =>
    if c0 = '%' then
      let w1 := (rest.takeWhile jsWs).length
      if w1 = 0 then false
      else
        match rest.drop w1 with
        | '➜' :: rest1 =>
          let w2 := (rest1.takeWhile jsWs).length
          if w2 = 0 then false
          else
            let rest2 := rest1.drop w2
            let nw := (rest2.takeWhile (fun c => ¬ jsWs c)).length
            if nw = 0 then false else (rest2.drop nw).all (fun c => jsWs c)
        | _ => false
    else false
  | [] => false

/-- `line.split(/\s{2,}/)`: the separators are the maximal whitespace runs
of length at least two; empty pieces are kept.  Fuel-structural like
`stripAllF`. -/
def splitWs2F : Nat → List Char → List (List Char)
  | _, [] => [[]]
  | 0, l => [l]
  | fuel + 1, c :: cs =>
    let sepHere : Bool :=
      jsWs c && (match cs with | d :: _ => jsWs d | [] => false)
    if sepHere then
      let run := (cs.takeWhile jsWs).length
      [] :: splitWs2F fuel (cs.drop run)
    else
      match splitWs2F fuel cs with
      | [] => [[c]]
      | p :: ps => (c :: p) :: ps

def splitWs2 (cs : List Char) : List (List Char) :=
  splitWs2F cs.length cs

/-- The first line-level pass (redraw collapsing): prompt+command lines
keep only the command, bare prompts disappear, and a line splitting into
more than three whitespace-run-separated parts with only one or two
distinct non-empty parts is replaced by its trimmed last part. -/
def collapsePass : List (List Char) → List (List Char)
  | [] => []
  | line :: rest =>
    match promptCmdCapture line with
    | some cap =>
      let l := jsTrimList cap
      if l = [] then collapsePass rest else l :: collapsePass rest
    | none =>
      if justPromptTest line then collapsePass rest
      else
        let parts := splitWs2 line
        if 3 < parts.length then
          let uniq := ((parts.map jsTrimList).filter (· ≠ [])).dedup
          if uniq.length = 1 ∨ uniq.length = 2 then
            let lastPart := jsTrimList (parts.getLastD [])
            if lastPart = [] then collapsePass rest else lastPart :: collapsePass rest
          else line :: collapsePass rest
        else line :: collapsePass rest

/-- `/^[>\[<\]]+$/.test(t)` -/
def bracketOnly (t : List Char) : Bool :=
  ¬ t.isEmpty && t.all (fun c => c = '>' ∨ c = '[' ∨ c = '<' ∨ c = ']')

/-- `/^%\s*$/.test(t)` -/
def percentOnly : List Char → Bool
  | c :: r => c = '%' && r.all (fun d => jsWs d)
  | [] => false

/-- `/^\d+ms\s+\d+[smh]\s+ago/.test(t)` -/
def msAgoTest (t : List Char) : Bool :=
  let d1 := (t.takeWhile isDigit).length
  if d1 = 0 then false
  else
    match t.drop d1 with
    | 'm' :: 's' :: r1 =>
      let w1 := (r1.takeWhile jsWs).length
      if w1 = 0 then false
      else
        let r2 := r1.drop w1
        let d2 := (r2.takeWhile isDigit).length
        if d2 = 0 then false
        else
          match r2.drop d2 with
          | u :: r3 =>
            if u = 's' ∨ u = 'm' ∨ u = 'h' then
              let w2 := (r3.takeWhile jsWs).length
              if w2 = 0 then false else startsList (r3.drop w2) ['a', 'g', 'o']
            else false
          | [] => false
    | _ => false

/-- `/ago[a-z]+[A-Z]/` at the current position. -/
def agoAt : List Char → Bool
  | c1 :: c2 :: c3 :: rest =>
    if c1 = 'a' ∧ c2 = 'g' ∧ c3 = 'o' then
      let n := (rest.takeWhile isLowerAlpha).length
      if n = 0 then false
      else
        match rest.drop n with
        | c :: _ => isUpperAlpha c
        | [] => false
    else false
  | _ => false

/-- `/ago[a-z]+[A-Z]/.test(t)` (search anywhere). -/
def agoSearch : List Char → Bool
  | [] => false
  | c :: cs => agoAt (c :: cs) || agoSearch cs

/-- `/^(Preparing|Writing|Starting|Installing|Joining)/.test(t)` -/
def progressTest (t : List Char) : Bool :=
  startsList t "Preparing".toList || startsList t "Writing".toList ||
  startsList t "Starting".toList || startsList t "Installing".toList ||
  startsList t "Joining".toList

/-- The look-ahead `for (let j = index + 1; …)` loop over the lines after
the current one: `true` means a completed (`✓`) progress line was found
before unrelated content, so the current incomplete progress line is
dropped. -/
def progressCompletedAhead : List (List Char) → Bool
  | [] => false
  | next :: rest =>
    let nt := jsTrimList next
    if containsList nt ['✓'] && progressTest nt then true
    else if ¬ nt.isEmpty && ¬ progressTest nt then false
    else progressCompletedAhead rest

/-- `/^[➜→✗]\s+\S+\s+\//.test(t)` -/
def arrowPathTest (t : List Char) : Bool :=
  match t with
  | c :: rest =>
    if isPromptMarker c then
      let w1 := (rest.takeWhile jsWs).length
      if w1 = 0 then false
      else
        let r1 := rest.drop w1
        let nw := (r1.takeWhile (fun d => ¬ jsWs d)).length
        if nw = 0 then false
        else
          let r2 := r1.drop nw
          let w2 := (r2.takeWhile jsWs).length
          if w2 = 0 then false
          else
            match r2.drop w2 with
            | '/' :: _ => true
            | _ => false
    else false
  | [] => false

/-- The `collapsed.filter((line, index) => …)` callback. -/
def keepLine (collapsed : List (List Char)) (index : Nat) (line : List Char) : Bool :=
  let t := jsTrimList line
  if t.isEmpty then true
  else if bracketOnly t then false
  else if percentOnly t then false
  else if containsList t "Atuin v".toList || containsList t "<esc>: exit".toList then false
  else if containsList t "Search│Inspect".toList || containsList t "history count:".toList then
    false
  else if containsList t "[GLOBAL]".toList then false
  else if msAgoTest t then false
  else if agoSearch t then false
  else if progressTest t && ¬ containsList t ['✓'] &&
      progressCompletedAhead (collapsed.drop (index + 1)) then false
  else
    let dup : Bool :=
      if 0 < index then
        match collapsed.get? (index - 1) with
        | some prev => jsTrimList prev = t && 10 < t.length
        | none => false
      else false
    if dup then false
    else if arrowPathTest t then false
    else true

/-- Apply the filter callback at each index. -/
def filterIdx (collapsed : List (List Char)) : Nat → List (List Char) → List (List Char)
  | _, [] => []
  | i, l :: ls =>
    if keepLine collapsed i l then l :: filterIdx collapsed (i + 1) ls
    else filterIdx collapsed (i + 1) ls

def filterPass (collapsed : List (List Char)) : List (List Char) :=
  filterIdx collapsed 0 collapsed

/-- `filtered.join('\n')` -/
def joinNl : List (List Char) → List Char
  | [] => []
  | [l] => l
  | l :: ls => l ++ '\n' :: joinNl ls

/-- `clean.replace(/\n{3,}/g, '\n\n')`, fuel-structural like
`stripAllF`. -/
def collapseNlF : Nat → List Char → List Char
  | _, [] => []
  | 0, l => l
  | fuel + 1, c :: cs =>
    let runHere : Bool :=
      c = '\n' && (match cs with | d :: e :: _ => d = '\n' && e = '\n' | _ => false)
    if runHere then
      let run := (cs.takeWhile (· = '\n')).length
      '\n' :: '\n' :: collapseNlF fuel (cs.drop run)
    else c :: collapseNlF fuel cs

def collapseNl (cs : List Char) : List Char :=
  collapseNlF cs.length cs

/-- The full escape/noise stripper `stripAnsiCodes`. -/
def stripAnsiCodes (text : String) : String :=
  let clean := stripControlSequences text.toList
  let lines := splitChList '\n' clean
  let collapsed := collapsePass lines
  let filtered := filterPass collapsed
  ⟨collapseNl (joinNl filtered)⟩

/-! ## `isCommandLine` and `extractCommand` -/

/-- `/^[🔮ℹ️✓🟥⚠️]/u.test(t)`: the character class contains the scalars
U+1F52E, U+2139, U+FE0F, U+2713, U+1F7E5, U+26A0 (the variation selector
U+FE0F is listed by both composed emoji). -/
def emojiStart : List Char → Bool
  | c :: _ =>
    c.toNat = 0x1f52e ∨ c.toNat = 0x2139 ∨ c.toNat = 0xfe0f ∨
    c.toNat = 0x2713 ∨ c.toNat = 0x1f7e5 ∨ c.toNat = 0x26a0
  | [] => false

/-- `/^(Creating|Set|You can|Have a|Total|Kubernetes|CoreDNS|To further|I\d{4})/i.test(t)` -/
def sentenceOpener (t : List Char) : Bool :=
  let lt := t.map Char.toLower
  startsList lt "creating".toList || startsList lt "set".toList ||
  startsList lt "you can".toList || startsList lt "have a".toList ||
  startsList lt "total".toList || startsList lt "kubernetes".toList ||
  startsList lt "coredns".toList || startsList lt "to further".toList ||
  (match lt with
   | 'i' :: d1 :: d2 :: d3 :: d4 :: _ => isDigit d1 && isDigit d2 && isDigit d3 && isDigit d4
   | _ => false)

/-- `/^[A-Z][a-z]+.*:/.test(t)`: an upper-case letter, at least one
lower-case letter, then a colon anywhere at index ≥ 2. -/
def capColonTest : List Char → Bool
  | c0 :: c1 :: rest => isUpperAlpha c0 && isLowerAlpha c1 && rest.contains ':'
  | _ => false

/-- `/^[\$#]\s/.test(t)` -/
def dollarSpaceTest : List Char → Bool
  | c0 :: c1 :: _ => (c0 = '$' ∨ c0 = '#') && jsWs c1
  | _ => false

/-- The `[a-zA-Z0-9_-]` class used by the prompt patterns. -/
def isWordDash (c : Char) : Bool := isAsciiLetter c ∨ isDigit c ∨ c = '_' ∨ c = '-'

/-- `/^[a-zA-Z_][a-zA-Z0-9_-]*@[a-zA-Z0-9_-]+[:#~]/.test(t)` -/
def userAtHostTest (t : List Char) : Bool :=
  match t with
  | c0 :: rest =>
    if isAsciiLetter c0 ∨ c0 = '_' then
      let n := (rest.takeWhile isWordDash).length
      match rest.drop n with
      | '@' :: r1 =>
        let h := (r1.takeWhile isWordDash).length
        if h = 0 then false
        else
          match r1.drop h with
          | d :: _ => d = ':' ∨ d = '#' ∨ d = '~'
          | [] => false
      | _ => false
    else false
  | [] => false

/-- `/^[➜→✗]\s+[a-zA-Z0-9_-]+\s+/.test(t)` -/
def arrowPromptTest (t : List Char) : Bool :=
  match t with
  | c :: rest =>
    if isPromptMarker c then
      let w1 := (rest.takeWhile jsWs).length
      if w1 = 0 then false
      else
        let r1 := rest.drop w1
        let n := (r1.takeWhile isWordDash).length
        if n = 0 then false
        else
          let r2 := r1.drop n
          0 < (r2.takeWhile jsWs).length
    else false
  | [] => false

/-- The fixed list of recognized executable names. -/
def commonCommands : List String :=
  ["ls", "cd", "pwd", "mkdir", "rm", "cp", "mv", "cat", "echo", "grep", "find",
   "kubectl", "docker", "git", "npm", "yarn", "curl", "wget", "make", "go",
   "python", "node", "java", "cargo", "brew", "apt", "yum", "systemctl",
   "kind", "helm", "cilium", "terraform", "ansible", "ssh", "scp", "rsync",
   "vi", "vim", "nano", "emacs", "less", "more", "head", "tail", "awk", "sed"]

/-- `trimmed.split(/\s+/)[0]` (the trimmed line has no leading
whitespace, so this is its leading non-whitespace run). -/
def firstToken (t : List Char) : List Char := t.takeWhile (fun c => ¬ jsWs c)

/-- `/^[\.\/~]/.test(t)` -/
def pathStartTest : List Char → Bool
  | c :: _ => c = '.' ∨ c = '/' ∨ c = '~'
  | [] => false

/-- `isCommandLine`, rule for rule in source order.  Note that the
capitalized-word-then-colon branch only returns (false) for lines
containing `cilium image`; every other such line falls through to the
prompt/command-name/path rules. -/
def isCommandLine (line : String) : Bool :=
  let t := jsTrimList line.toList
  if t.isEmpty then false
  else if emojiStart t then false
  else if sentenceOpener t then false
  else if startsList t "==>".toList || startsList t "---".toList then false
  else if capColonTest t && ¬ containsList t "$".toList && ¬ containsList t "#".toList &&
      containsList t "cilium image".toList then false
  else if dollarSpaceTest t then true
  else if userAtHostTest t then true
  else if arrowPromptTest t then true
  else if commonCommands.contains (⟨firstToken t⟩ : String) &&
      !(match t with | c :: _ => isUpperAlpha c | [] => false) &&
      (!containsList t ":".toList || containsList t "--".toList) then true
  else if pathStartTest t then true
  else false

/-- Replace the first match of an anchored pattern (the matcher returns
the match length at the start) with nothing. -/
def removeAnchored (m : List Char → Option Nat) (cs : List Char) : List Char :=
  match m cs with
  | some k => cs.drop k
  | none => cs

/-- `/^[➜→✗]\s+[^\s]+\s+/`: length of the match at the start. -/
def arrowPreM (t : List Char) : Option Nat :=
  match t with
  | c :: rest =>
    if isPromptMarker c then
      let w1 := (rest.takeWhile jsWs).length
      if w1 = 0 then none
      else
        let r1 := rest.drop w1
        let n := (r1.takeWhile (fun d => ¬ jsWs d)).length
        if n = 0 then none
        else
          let r2 := r1.drop n
          let w2 := (r2.takeWhile jsWs).length
          if w2 = 0 then none else some (1 + w1 + n + w2)
    else none
  | [] => none

/-- `/^[a-zA-Z_][a-zA-Z0-9_-]*@[a-zA-Z0-9_-]+:[^\$#]*[\$#]\s*/`: length of
the match at the start. -/
def userHostPreM (t : List Char) : Option Nat :=
  match t with
  | c0 :: rest =>
    if isAsciiLetter c0 ∨ c0 = '_' then
      let n := (rest.takeWhile isWordDash).length
      match rest.drop n with
      | '@' :: r1 =>
        let h := (r1.takeWhile isWordDash).length
        if h = 0 then none
        else
          match r1.drop h with
          | ':' :: r2 =>
            let b := (r2.takeWhile (fun d => ¬ (d = '$' ∨ d = '#'))).length
            match r2.drop b with
            | d :: r3 =>
              if d = '$' ∨ d = '#' then
                some (1 + n + 1 + h + 1 + b + 1 + (r3.takeWhile jsWs).length)
              else none
            | [] => none
          | _ => none
      | _ => none
    else none
  | [] => none

/-- `/^[\$#]\s*/`: length of the match at the start. -/
def dollarPreM (t : List Char) : Option Nat :=
  match t with
  | c :: rest => if c = '$' ∨ c = '#' then some (1 + (rest.takeWhile jsWs).length) else none
  | [] => none

/-- `/^m\s+/`: length of the match at the start. -/
def mPreM (t : List Char) : Option Nat :=
  match t with
  | 'm' :: rest =>
    let w := (rest.takeWhile jsWs).length
    if w = 0 then none else some (1 + w)
  | _ => none

/-- `extractCommand`: trim, then strip the decorated-prompt,
user@host, bare `$`/`#` and stray `m ` artifacts in source order. -/
def extractCommand (line : String) : String :=
  let c0 := jsTrimList line.toList
  let c1 := removeAnchored arrowPreM c0
  let c2 := removeAnchored userHostPreM c1
  let c3 := removeAnchored dollarPreM c2
  ⟨removeAnchored mPreM c3⟩

/-! ## `parseTerminalOutput` -/

inductive BlockKind where
  | command : BlockKind
  | output : BlockKind
deriving DecidableEq

structure Block where
  kind : BlockKind
  content : String
deriving DecidableEq

/-- The block-building loop of `parseTerminalOutput`; the returned list is
the `blocks` array in push order, `cur` the `currentBlock` variable. -/
def ptoGo : Option Block → List String → List Block
  | cur, [] => cur.toList
  | cur, line :: rest =>
    if jsTrim line = "" then
      match cur with
      | some b =>
        match b.kind with
        | .output => ptoGo (some ⟨.output, b.content ++ "\n"⟩) rest
        | .command => ptoGo (some b) rest
      | none => ptoGo none rest
    else if isCommandLine line then
      let cmd := extractCommand line
      if cmd = "" then cur.toList ++ ptoGo none rest
      else cur.toList ++ ptoGo (some ⟨.command, "$ " ++ cmd ++ "\n"⟩) rest
    else
      match cur with
      | some b =>
        match b.kind with
        | .command => b :: ptoGo (some ⟨.output, line ++ "\n"⟩) rest
        | .output => ptoGo (some ⟨.output, b.content ++ line ++ "\n"⟩) rest
      | none => ptoGo (some ⟨.output, line ++ "\n"⟩) rest

/-- `parseTerminalOutput(output)`. -/
def parseTerminalOutput (output : String) : List Block :=
  ptoGo none (jsSplitChar '\n' output)

/-! ## Markdown rendering and `convertCastToMarkdown` -/

/-- One block of the Terminal Session section. -/
def renderBlock (b : Block) : String :=
  match b.kind with
  | .command => "```bash\n" ++ jsTrim b.content ++ "\n```\n\n"
  | .output => "```\n" ++ jsTrim b.content ++ "\n```\n\n"

/-- `Object.entries(x)` for the values reachable at `header.env`. -/
def jsEntries : Json → List (String × JsVal)
  | .obj fields => fields.map (fun p => (p.1, .val p.2))
  | .arr elts => elts.enum.map (fun p => (toString p.1, .val p.2))
  | .str s => s.toList.enum.map (fun p => (toString p.1, .val (.str ⟨[p.2]⟩)))
  | _ => []

/-- `Math.floor(event.time)` as an object key: `none` models `NaN` (the
key string `"NaN"`), `some i` the integer key `String(i)`. -/
def jsFloorKey (v : JsVal) : Option Int := (jsToNumber v).map Rat.floor

/-- `eventsBySecond[second] = (eventsBySecond[second] || 0) + 1` on an
insertion-ordered association list (a JS object with these keys). -/
def bumpKey : List (Option Int × Nat) → Option Int → List (Option Int × Nat)
  | [], k => [(k, 1)]
  | (k', n) :: rest, k =>
    if k' = k then (k', n + 1) :: rest else (k', n) :: bumpKey rest k

/-- The `events.forEach` accumulation into `eventsBySecond`. -/
def eventsBySecond (events : List JsEvent) : List (Option Int × Nat) :=
  events.foldl (fun m e => bumpKey m (jsFloorKey e.time)) []

/-- `Object.keys(eventsBySecond).map(Number).sort((a, b) => a - b)`: the
numeric keys in ascending order.  (A `NaN` key makes the comparator
inconsistent and its position implementation-defined; it is modelled as
sorting last.  No claim depends on that corner.) -/
def sortKeys (ks : List (Option Int)) : List (Option Int) :=
  ((ks.filterMap id).insertionSort (· ≤ ·)).map some ++ ks.filter (fun k => k.isNone)

def lookupCount (m : List (Option Int × Nat)) (k : Option Int) : Nat :=
  match m with
  | [] => 0
  | (k', n) :: rest => if k' = k then n else lookupCount rest k

/-- The rows of the timeline table, in render order. -/
def timelineRows (events : List JsEvent) : List (Option Int × Nat) :=
  let m := eventsBySecond events
  (sortKeys (m.map Prod.fst)).map (fun k => (k, lookupCount m k))

/-- `time.toFixed(1)` of a floored time. -/
def renderTimeKey : Option Int → String
  | none => "NaN"
  | some i => toString i ++ ".0"

/-- `convertCastToMarkdown(castContent, fileName)`.  `toLocale` is the
host's `new Date(timestamp * 1000).toLocaleString()` (locale- and
timezone-dependent), passed in as an uninterpreted rendering function of
the raw `timestamp` field. -/
def convertCastToMarkdown (toLocale : JsVal → String) (castContent fileName : String) :
    String :=
  let lines := jsSplitChar '\n' (jsTrim castContent)
  if lines.length = 0 then "```\nEmpty cast file\n```"
  else
    match Json.parse (lines.headD "") with
    | none => "```\nInvalid cast file format: Could not parse header\n```"
    | some .null =>
      -- a null header throws a TypeError at the first member access
      -- (`header.title`); the function's outer catch turns any such throw
      -- into this fixed error block
      "```\nError converting cast file to markdown\n```"
    | some header =>
      let events := parseEvents (lines.drop 1)
      let title := jsGetField header "title"
      let md0 := "# Terminal Recording: " ++
        (if jsTruthy title then jsValToString title else fileName) ++ "\n\n" ++
        "## Recording Information\n\n" ++
        "- **File**: " ++ fileName ++ "\n" ++
        "- **Version**: " ++ jsValToString (jsGetField header "version") ++ "\n" ++
        "- **Dimensions**: " ++ jsValToString (jsGetField header "width") ++ " × " ++
          jsValToString (jsGetField header "height") ++ "\n"
      let ts := jsGetField header "timestamp"
      let md1 := md0 ++
        (if jsTruthy ts then "- **Recorded**: " ++ toLocale ts ++ "\n" else "")
      let env := jsGetField header "env"
      let md2 := md1 ++
        (if jsTruthy env then
          "- **Environment**:\n" ++
            String.join ((match env with
              | .val j => jsEntries j
              | .undef => []).map
              (fun (p : String × JsVal) => "  - " ++ p.1 ++ ": " ++ jsValToString p.2 ++ "\n"))
        else "")
      let cleanOutput := stripAnsiCodes (aggregateOutput events)
      let blocks := parseTerminalOutput cleanOutput
      let md3 := md2 ++ "\n## Terminal Session\n\n" ++
        String.join (blocks.map renderBlock)
      let md4 := md3 ++ "## Timeline\n\n" ++
        "Total events: " ++ toString events.length ++ "\n\n" ++
        "| Time (s) | Events |\n" ++ "|----------|--------|\n" ++
        String.join ((timelineRows events).map
          (fun r => "| " ++ renderTimeKey r.1 ++ " | " ++ toString r.2 ++ " |\n"))
      md4 ++ "\n---\n\n" ++ "*Generated from asciinema cast file*\n"

/-! ## The batch endpoint `POST` -/

structure BatchResponse where
  markdowns : List (String × String)
  count : Option Nat
  message : Option String

/-- The `POST` handler.  `dirExists` models `fs.existsSync(loggingDir)`,
`files` the request's `files` field (`none` for a missing/null field),
`contentOf` the filesystem (`none` models a missing file).  A field the
handler does not put in its JSON response is `none`. -/
def postConvert (toLocale : JsVal → String) (dirExists : Bool)
    (files : Option (List String)) (contentOf : String → Option String) : BatchResponse :=
  if ¬ dirExists then ⟨[], none, some "No logging directory found"⟩
  else
    match files with
    | none => ⟨[], none, some "No files selected"⟩
    | some fs =>
      if fs.isEmpty then ⟨[], none, some "No files selected"⟩
      else
        let castFiles := fs.filter (fun f => endsList f.toList ".cast".toList)
        let data := castFiles.filterMap
          (fun f => (contentOf f).map (fun c => (f, convertCastToMarkdown toLocale c f)))
        ⟨data, some data.length, none⟩

/-! ## Specification-side definitions used by the theorems -/

/-- The shape invariant of an emitted block: a command block's content is
exactly `"$ "`, a non-empty newline-free extracted command, and one
trailing newline (hence exactly one line, which is a command line); an
output block's content starts with a newline-terminated first line that
contains a non-whitespace character. -/
def GoodBlock (b : Block) : Prop :=
  match b.kind with
  | .command => ∃ c : String, b.content = "$ " ++ c ++ "\n" ∧ c ≠ "" ∧ '\n' ∉ c.toList
  | .output => ∃ l r : List Char,
      b.content.data = l ++ '\n' :: r ∧ '\n' ∉ l ∧ ∃ ch ∈ l, jsWs ch = false

/-- A block tagged with the index of the source line that opened it. -/
structure IdxBlock where
  idx : Nat
  blk : Block

/-- `ptoGo` on index-tagged lines, recording for each emitted block the
index of the line that opened it. -/
def ptoGoIdx : Option IdxBlock → List (Nat × String) → List IdxBlock
  | cur, [] => cur.toList
  | cur, (i, line) :: rest =>
    if jsTrim line = "" then
      match cur with
      | some ib =>
        match ib.blk.kind with
        | .output => ptoGoIdx (some ⟨ib.idx, ⟨.output, ib.blk.content ++ "\n"⟩⟩) rest
        | .command => ptoGoIdx (some ib) rest
      | none => ptoGoIdx none rest
    else if isCommandLine line then
      let cmd := extractCommand line
      if cmd = "" then cur.toList ++ ptoGoIdx none rest
      else cur.toList ++ ptoGoIdx (some ⟨i, ⟨.command, "$ " ++ cmd ++ "\n"⟩⟩) rest
    else
      match cur with
      | some ib =>
        match ib.blk.kind with
        | .command => ib :: ptoGoIdx (some ⟨i, ⟨.output, line ++ "\n"⟩⟩) rest
        | .output => ptoGoIdx (some ⟨ib.idx, ⟨.output, ib.blk.content ++ line ++ "\n"⟩⟩) rest
      | none => ptoGoIdx (some ⟨i, ⟨.output, line ++ "\n"⟩⟩) rest

/-- `parseTerminalOutput` with block provenance. -/
def parseTerminalOutputIdx (output : String) : List IdxBlock :=
  ptoGoIdx none ((jsSplitChar '\n' output).enum)

/-- The opening-line index of the current open block, as a list. -/
def obIdx : Option IdxBlock → List Nat
  | none => []
  | some ib => [ib.idx]

/-- A concrete two-event recording (the spec's minimal-recording
scenario), used as evaluation input. -/
def c7Sample : List JsEvent :=
  [⟨.val (.num (1 / 10)), .val (.str "o"), .val (.str "$ ls\r\n")⟩,
   ⟨.val (.num (1 / 2)), .val (.str "o"), .val (.str "file.txt\r\n")⟩]

/-- The alphabet of "plain" text: lower-case ASCII letters and the
space. -/
def plainChars : List Char :=
  ['a', 'b', 'c', 'd', 'e', 'f', 'g', 'h', 'i', 'j', 'k', 'l', 'm',
   'n', 'o', 'p', 'q', 'r', 's', 't', 'u', 'v', 'w', 'x', 'y', 'z', ' ']

def plainChar (c : Char) : Bool := plainChars.contains c

/-- No two consecutive spaces. -/
def noDoubleSpace : List Char → Bool
  | c :: d :: rest => !(c = ' ' && d = ' ') && noDoubleSpace (d :: rest)
  | _ => true

/-- A plain line: non-empty, plain characters only, no edge or doubled
spaces. -/
def plainLine (l : List Char) : Bool :=
  !l.isEmpty && l.all plainChar &&
  (match l with
   | c :: _ => !(c = ' ')
   | [] => true) &&
  (match l.reverse with
   | c :: _ => !(c = ' ')
   | [] => true) &&
  noDoubleSpace l

/-- No two adjacent lines are equal. -/
def adjDistinct : List (List Char) → Bool
  | a :: b :: rest => !(a = b) && adjDistinct (b :: rest)
  | _ => true

/-- Plain text: a non-empty list of plain lines with no two adjacent
lines equal. -/
def plainText (L : List (List Char)) : Bool :=
  !L.isEmpty && L.all plainLine && adjDistinct L

/-- A character that starts no match of any of the sixteen removal
passes. -/
def notTrigger (c : Char) : Bool :=
  c ≠ '\x1b' ∧ c ≠ '[' ∧ c ≠ ']' ∧
  ¬ (0x2800 ≤ c.toNat ∧ c.toNat ≤ 0x28ff) ∧
  ¬ (c.toNat ≤ 8 ∨ c.toNat = 0xb ∨ c.toNat = 0xc ∨
      (0xe ≤ c.toNat ∧ c.toNat ≤ 0x1f) ∨ c.toNat = 0x7f) ∧
  c ≠ '\r'

/-- No three consecutive newlines. -/
def noTripleNl : List Char → Bool
  | a :: b :: c :: rest => !(a = '\n' && b = '\n' && c = '\n') && noTripleNl (b :: c :: rest)
  | _ => true

/-! # Theorems settling the claims -/

/-! ## Generic facts about the string helpers -/

theorem splitChList_not_mem (sep : Char) (cs : List Char) :
    ∀ l ∈ splitChList sep cs, sep ∉ l := by
  induction cs with
  | nil =>
    intro l hl
    simp only [splitChList, List.mem_singleton] at hl
    simp [hl]
  | cons c cs ih =>
    intro l hl
    simp only [splitChList] at hl
    by_cases hc : c = sep
    · rw [if_pos hc] at hl
      rcases List.mem_cons.mp hl with h | h
      · simp [h]
      · exact ih l h
    · rw [if_neg hc] at hl
      cases hsplit : splitChList sep cs with
      | nil => exact absurd hsplit (splitChList_ne_nil sep cs)
      | cons p ps =>
        rw [hsplit] at hl
        rcases List.mem_cons.mp hl with h | h
        · subst h
          intro hmem
          rcases List.mem_cons.mp hmem with h' | h'
          · exact hc h'.symm
          · exact ih p (hsplit ▸ List.mem_cons_self p ps) h'
        · exact ih l (hsplit ▸ List.mem_cons_of_mem p h)

theorem dropWsL_subset (cs : List Char) : ∀ c ∈ dropWsL cs, c ∈ cs :=
  fun _ h => (List.dropWhile_sublist _).subset h

theorem jsTrimList_subset (cs : List Char) : ∀ c ∈ jsTrimList cs, c ∈ cs := by
  intro c hc
  unfold jsTrimList at hc
  rw [List.mem_reverse] at hc
  have h1 := (List.dropWhile_sublist (l := (dropWsL cs).reverse)
    (p := fun c => jsWs c)).subset hc
  rw [List.mem_reverse] at h1
  exact dropWsL_subset cs c h1

theorem jsTrimList_eq_nil_iff (cs : List Char) :
    jsTrimList cs = [] ↔ ∀ c ∈ cs, jsWs c = true := by
  unfold jsTrimList
  rw [List.reverse_eq_nil_iff, List.dropWhile_eq_nil_iff]
  constructor
  · intro h c hc
    rcases List.mem_append.mp
        ((List.takeWhile_append_dropWhile (p := fun c => jsWs c) (l := cs)) ▸ hc) with
      h1 | h1
    · exact List.mem_takeWhile_imp h1
    · exact h c (List.mem_reverse.mpr h1)
  · intro h c hc
    exact h c (dropWsL_subset cs c (List.mem_reverse.mp hc))

theorem jsTrim_ne_empty (s : String) (c : Char) (hc : c ∈ s.toList)
    (hw : jsWs c = false) : jsTrim s ≠ "" := by
  intro h
  have hdata : jsTrimList s.toList = [] := congrArg String.data h
  have := (jsTrimList_eq_nil_iff s.toList).mp hdata c hc
  rw [hw] at this
  exact Bool.noConfusion this

theorem exists_not_ws_of_jsTrim_ne (s : String) (h : jsTrim s ≠ "") :
    ∃ c ∈ s.toList, jsWs c = false := by
  by_contra hall
  push_neg at hall
  apply h
  apply String.ext
  show jsTrimList s.toList = ([] : List Char)
  exact (jsTrimList_eq_nil_iff s.toList).mpr
    (fun c hc => by
      have := hall c hc
      cases hjs : jsWs c with
      | false => exact absurd hjs this
      | true => rfl)

theorem removeAnchored_subset (m : List Char → Option Nat) (cs : List Char) :
    ∀ c ∈ removeAnchored m cs, c ∈ cs := by
  intro c hc
  unfold removeAnchored at hc
  cases hm : m cs with
  | none => rw [hm] at hc; exact hc
  | some k => rw [hm] at hc; exact List.drop_subset k cs hc

theorem extractCommand_subset (line : String) :
    ∀ c ∈ (extractCommand line).toList, c ∈ line.toList := by
  intro c hc
  unfold extractCommand at hc
  have h1 : c ∈ removeAnchored dollarPreM
      (removeAnchored userHostPreM (removeAnchored arrowPreM (jsTrimList line.toList))) :=
    removeAnchored_subset _ _ c hc
  have h2 := removeAnchored_subset userHostPreM _ _
    (removeAnchored_subset dollarPreM _ _ h1)
  have h3 := removeAnchored_subset arrowPreM _ _ h2
  exact jsTrimList_subset _ c h3

/-! ## C6 and C10: block shape, non-emptiness and order -/

theorem GoodBlock.output_append (ct s : String) (h : GoodBlock ⟨.output, ct⟩) :
    GoodBlock ⟨.output, ct ++ s⟩ := by
  obtain ⟨l, r, hdata, hnl, hch⟩ := h
  exact ⟨l, r ++ s.data, by
    show (ct ++ s).data = _
    rw [String.data_append, hdata]
    simp, hnl, hch⟩

theorem GoodBlock.output_seed (line : String) (hne : jsTrim line ≠ "")
    (hnl : '\n' ∉ line.toList) : GoodBlock ⟨.output, line ++ "\n"⟩ := by
  obtain ⟨c, hc, hw⟩ := exists_not_ws_of_jsTrim_ne line hne
  exact ⟨line.data, [], by simp [String.data_append], hnl, c, hc, hw⟩

theorem GoodBlock.command_seed (cmd : String) (hne : cmd ≠ "")
    (hnl : '\n' ∉ cmd.toList) : GoodBlock ⟨.command, "$ " ++ cmd ++ "\n"⟩ :=
  ⟨cmd, rfl, hne, hnl⟩

theorem ptoGo_good : ∀ (lines : List String) (cur : Option Block),
    (∀ l ∈ lines, '\n' ∉ l.toList) →
    (∀ b ∈ cur.toList, GoodBlock b) →
    ∀ b ∈ ptoGo cur lines, GoodBlock b := by
  intro lines
  induction lines with
  | nil =>
    intro cur _ hcur b hb
    simp only [ptoGo] at hb
    exact hcur b hb
  | cons line rest ih =>
    intro cur hlines hcur b hb
    have hrest : ∀ l ∈ rest, '\n' ∉ l.toList :=
      fun l hl => hlines l (List.mem_cons_of_mem _ hl)
    have hline : '\n' ∉ line.toList := hlines line (List.mem_cons_self _ _)
    by_cases h1 : jsTrim line = ""
    · cases cur with
      | none =>
        rw [show ptoGo none (line :: rest) = ptoGo none rest by
          simp only [ptoGo, if_pos h1]] at hb
        exact ih none hrest (by simp) b hb
      | some bb =>
        obtain ⟨k, ct⟩ := bb
        cases k with
        | output =>
          rw [show ptoGo (some ⟨.output, ct⟩) (line :: rest) =
              ptoGo (some ⟨.output, ct ++ "\n"⟩) rest by
            simp only [ptoGo, if_pos h1]] at hb
          refine ih _ hrest ?_ b hb
          intro b' hb'
          rw [Option.mem_toList, Option.mem_def, Option.some.injEq] at hb'
          rw [← hb']
          exact GoodBlock.output_append ct "\n" (hcur ⟨.output, ct⟩ (by simp))
        | command =>
          rw [show ptoGo (some ⟨.command, ct⟩) (line :: rest) =
              ptoGo (some ⟨.command, ct⟩) rest by
            simp only [ptoGo, if_pos h1]] at hb
          exact ih _ hrest hcur b hb
    · by_cases h2 : isCommandLine line = true
      · by_cases h3 : extractCommand line = ""
        · rw [show ptoGo cur (line :: rest) = cur.toList ++ ptoGo none rest by
            simp only [ptoGo, if_neg h1, if_pos h2, if_pos h3]] at hb
          rcases List.mem_append.mp hb with h | h
          · exact hcur b h
          · exact ih none hrest (by simp) b h
        · rw [show ptoGo cur (line :: rest) = cur.toList ++
              ptoGo (some ⟨.command, "$ " ++ extractCommand line ++ "\n"⟩) rest by
            simp only [ptoGo, if_neg h1, if_pos h2, if_neg h3]] at hb
          rcases List.mem_append.mp hb with h | h
          · exact hcur b h
          · refine ih _ hrest ?_ b h
            intro b' hb'
            rw [Option.mem_toList, Option.mem_def, Option.some.injEq] at hb'
            rw [← hb']
            refine GoodBlock.command_seed _ h3 ?_
            intro hmem
            exact hline (extractCommand_subset line '\n' hmem)
      · cases cur with
        | none =>
          rw [show ptoGo none (line :: rest) =
              ptoGo (some ⟨.output, line ++ "\n"⟩) rest by
            simp only [ptoGo, if_neg h1, if_neg h2]] at hb
          refine ih _ hrest ?_ b hb
          intro b' hb'
          rw [Option.mem_toList, Option.mem_def, Option.some.injEq] at hb'
          rw [← hb']
          exact GoodBlock.output_seed line h1 hline
        | some bb =>
          obtain ⟨k, ct⟩ := bb
          cases k with
          | command =>
            rw [show ptoGo (some ⟨.command, ct⟩) (line :: rest) =
                ⟨.command, ct⟩ :: ptoGo (some ⟨.output, line ++ "\n"⟩) rest by
              simp only [ptoGo, if_neg h1, if_neg h2]] at hb
            rcases List.mem_cons.mp hb with h | h
            · rw [h]
              exact hcur _ (by simp)
            · refine ih _ hrest ?_ b h
              intro b' hb'
              rw [Option.mem_toList, Option.mem_def, Option.some.injEq] at hb'
              rw [← hb']
              exact GoodBlock.output_seed line h1 hline
          | output =>
            rw [show ptoGo (some ⟨.output, ct⟩) (line :: rest) =
                ptoGo (some ⟨.output, ct ++ line ++ "\n"⟩) rest by
              simp only [ptoGo, if_neg h1, if_neg h2]] at hb
            refine ih _ hrest ?_ b hb
            intro b' hb'
            rw [Option.mem_toList, Option.mem_def, Option.some.injEq] at hb'
            rw [← hb']
            have h0 : GoodBlock ⟨.output, ct⟩ := hcur _ (by simp)
            have := GoodBlock.output_append ct (line ++ "\n") h0
            rwa [← String.append_assoc] at this

theorem ptoGoIdx_erase : ∀ (l : List (Nat × String)) (cur : Option IdxBlock),
    (ptoGoIdx cur l).map IdxBlock.blk = ptoGo (cur.map IdxBlock.blk) (l.map Prod.snd) := by
  intro l
  induction l with
  | nil =>
    intro cur
    cases cur with
    | none => rfl
    | some ib => rfl
  | cons p rest ih =>
    intro cur
    obtain ⟨i, line⟩ := p
    by_cases h1 : jsTrim line = ""
    · cases cur with
      | none =>
        simp only [ptoGoIdx, ptoGo, List.map_cons, if_pos h1, Option.map_none]
        simpa using ih none
      | some ib =>
        obtain ⟨j, k, ct⟩ := ib
        cases k with
        | output =>
          simp only [ptoGoIdx, ptoGo, List.map_cons, if_pos h1, Option.map_some]
          simpa using ih (some ⟨j, ⟨.output, ct ++ "\n"⟩⟩)
        | command =>
          simp only [ptoGoIdx, ptoGo, List.map_cons, if_pos h1, Option.map_some]
          simpa using ih (some ⟨j, ⟨.command, ct⟩⟩)
    · by_cases h2 : isCommandLine line = true
      · by_cases h3 : extractCommand line = ""
        · simp only [ptoGoIdx, ptoGo, List.map_cons, if_neg h1, if_pos h2, if_pos h3,
            List.map_append]
          rw [ih none]
          cases cur with
          | none => rfl
          | some ib => rfl
        · simp only [ptoGoIdx, ptoGo, List.map_cons, if_neg h1, if_pos h2, if_neg h3,
            List.map_append]
          rw [ih (some ⟨i, ⟨.command, "$ " ++ extractCommand line ++ "\n"⟩⟩)]
          cases cur with
          | none => rfl
          | some ib => rfl
      · cases cur with
        | none =>
          simp only [ptoGoIdx, ptoGo, List.map_cons, if_neg h1, if_neg h2, Option.map_none]
          simpa using ih (some ⟨i, ⟨.output, line ++ "\n"⟩⟩)
        | some ib =>
          obtain ⟨j, k, ct⟩ := ib
          cases k with
          | command =>
            simp only [ptoGoIdx, ptoGo, List.map_cons, if_neg h1, if_neg h2, Option.map_some,
              List.map_cons]
            simpa using ih (some ⟨i, ⟨.output, line ++ "\n"⟩⟩)
          | output =>
            simp only [ptoGoIdx, ptoGo, List.map_cons, if_neg h1, if_neg h2, Option.map_some]
            simpa using ih (some ⟨j, ⟨.output, ct ++ line ++ "\n"⟩⟩)

theorem obIdx_lt (cur : Option IdxBlock) (rest : List Nat)
    (h : List.Pairwise (· < ·) (obIdx cur ++ rest)) :
    ∀ a ∈ obIdx cur, ∀ b ∈ rest, a < b :=
  fun a ha b hb => (List.pairwise_append.mp h).2.2 a ha b hb

theorem ptoGoIdx_sorted : ∀ (l : List (Nat × String)) (cur : Option IdxBlock),
    List.Pairwise (· < ·) (obIdx cur ++ l.map Prod.fst) →
    List.Pairwise (· < ·) ((ptoGoIdx cur l).map IdxBlock.idx) ∧
    ∀ k ∈ (ptoGoIdx cur l).map IdxBlock.idx, k ∈ obIdx cur ++ l.map Prod.fst := by
  intro l
  induction l with
  | nil =>
    intro cur h
    constructor
    · cases cur with
      | none => simp [ptoGoIdx]
      | some ib =>
        simp only [ptoGoIdx, Option.toList_some, List.map_cons, List.map_nil]
        exact List.pairwise_singleton _ _
    · intro k hk
      cases cur with
      | none => simp [ptoGoIdx] at hk
      | some ib =>
        simp only [ptoGoIdx, Option.toList_some, List.map_cons, List.map_nil,
          List.mem_singleton] at hk
        simp [obIdx, hk]
  | cons p rest ih =>
    intro cur h
    obtain ⟨i, line⟩ := p
    have hsub : List.Sublist (obIdx cur ++ rest.map Prod.fst)
        (obIdx cur ++ ((i, line) :: rest).map Prod.fst) := by
      simp only [List.map_cons]
      exact (List.sublist_cons_self i (rest.map Prod.fst)).append_left (obIdx cur)
    by_cases h1 : jsTrim line = ""
    · cases cur with
      | none =>
        rw [show ptoGoIdx none ((i, line) :: rest) = ptoGoIdx none rest by
          simp only [ptoGoIdx, if_pos h1]]
        obtain ⟨hs, hm⟩ := ih none (h.sublist hsub)
        exact ⟨hs, fun k hk => hsub.subset (hm k hk)⟩
      | some ib =>
        obtain ⟨j, k0, ct⟩ := ib
        cases k0 with
        | output =>
          rw [show ptoGoIdx (some ⟨j, ⟨.output, ct⟩⟩) ((i, line) :: rest) =
              ptoGoIdx (some ⟨j, ⟨.output, ct ++ "\n"⟩⟩) rest by
            simp only [ptoGoIdx, if_pos h1]]
          obtain ⟨hs, hm⟩ := ih (some ⟨j, ⟨.output, ct ++ "\n"⟩⟩) (h.sublist hsub)
          exact ⟨hs, fun k hk => hsub.subset (hm k hk)⟩
        | command =>
          rw [show ptoGoIdx (some ⟨j, ⟨.command, ct⟩⟩) ((i, line) :: rest) =
              ptoGoIdx (some ⟨j, ⟨.command, ct⟩⟩) rest by
            simp only [ptoGoIdx, if_pos h1]]
          obtain ⟨hs, hm⟩ := ih (some ⟨j, ⟨.command, ct⟩⟩) (h.sublist hsub)
          exact ⟨hs, fun k hk => hsub.subset (hm k hk)⟩
    · by_cases h2 : isCommandLine line = true
      · have hrestp : List.Pairwise (· < ·) (rest.map Prod.fst) := by
          refine List.Pairwise.sublist ?_ h
          refine List.Sublist.trans ?_ (List.sublist_append_right (obIdx cur) _)
          simp only [List.map_cons]
          exact List.sublist_cons_self i (rest.map Prod.fst)
        by_cases h3 : extractCommand line = ""
        · rw [show ptoGoIdx cur ((i, line) :: rest) = cur.toList ++ ptoGoIdx none rest by
            simp only [ptoGoIdx, if_neg h1, if_pos h2, if_pos h3]]
          obtain ⟨hs, hm⟩ := ih none (by simpa [obIdx] using hrestp)
          rw [List.map_append]
          constructor
          · rw [List.pairwise_append]
            refine ⟨?_, hs, ?_⟩
            · cases cur with
              | none => simp
              | some ib => exact List.pairwise_singleton _ _
            · intro a ha b hb
              have hb' := hm b hb
              simp only [obIdx, List.nil_append] at hb'
              have ha' : a ∈ obIdx cur := by
                cases cur with
                | none => simp at ha
                | some ib => simpa [obIdx] using ha
              exact obIdx_lt cur _ h a ha' b
                (by simp only [List.map_cons]; exact List.mem_cons_of_mem _ hb')
          · intro k hk
            rcases List.mem_append.mp hk with hk | hk
            · apply List.mem_append.mpr
              left
              cases cur with
              | none => simp at hk
              | some ib => simpa [obIdx] using hk
            · have := hm k hk
              simp only [obIdx, List.nil_append] at this
              apply List.mem_append.mpr
              right
              simp only [List.map_cons]
              exact List.mem_cons_of_mem _ this
        · rw [show ptoGoIdx cur ((i, line) :: rest) = cur.toList ++
              ptoGoIdx (some ⟨i, ⟨.command, "$ " ++ extractCommand line ++ "\n"⟩⟩) rest by
            simp only [ptoGoIdx, if_neg h1, if_pos h2, if_neg h3]]
          have hinner : List.Pairwise (· < ·)
              (obIdx (some ⟨i, ⟨.command, "$ " ++ extractCommand line ++ "\n"⟩⟩) ++
                rest.map Prod.fst) := by
            simp only [obIdx, List.singleton_append]
            refine List.Pairwise.sublist ?_ h
            simp only [List.map_cons]
            exact List.sublist_append_right (obIdx cur) _
          obtain ⟨hs, hm⟩ := ih _ hinner
          rw [List.map_append]
          constructor
          · rw [List.pairwise_append]
            refine ⟨?_, hs, ?_⟩
            · cases cur with
              | none => simp
              | some ib => exact List.pairwise_singleton _ _
            · intro a ha b hb
              have hb' := hm b hb
              simp only [obIdx, List.singleton_append] at hb'
              have ha' : a ∈ obIdx cur := by
                cases cur with
                | none => simp at ha
                | some ib => simpa [obIdx] using ha
              exact obIdx_lt cur _ h a ha' b (by simpa [List.map_cons] using hb')
          · intro k hk
            rcases List.mem_append.mp hk with hk | hk
            · apply List.mem_append.mpr
              left
              cases cur with
              | none => simp at hk
              | some ib => simpa [obIdx] using hk
            · have := hm k hk
              simp only [obIdx, List.singleton_append] at this
              apply List.mem_append.mpr
              right
              simpa [List.map_cons] using this
      · cases cur with
        | none =>
          rw [show ptoGoIdx none ((i, line) :: rest) =
              ptoGoIdx (some ⟨i, ⟨.output, line ++ "\n"⟩⟩) rest by
            simp only [ptoGoIdx, if_neg h1, if_neg h2]]
          have hinner : List.Pairwise (· < ·)
              (obIdx (some ⟨i, ⟨.output, line ++ "\n"⟩⟩) ++ rest.map Prod.fst) := by
            simp only [obIdx, List.singleton_append]
            simpa [obIdx, List.map_cons] using h
          obtain ⟨hs, hm⟩ := ih _ hinner
          refine ⟨hs, fun k hk => ?_⟩
          have := hm k hk
          simpa [obIdx, List.map_cons] using this
        | some ib =>
          obtain ⟨j, k0, ct⟩ := ib
          cases k0 with
          | command =>
            rw [show ptoGoIdx (some ⟨j, ⟨.command, ct⟩⟩) ((i, line) :: rest) =
                ⟨j, ⟨.command, ct⟩⟩ :: ptoGoIdx (some ⟨i, ⟨.output, line ++ "\n"⟩⟩) rest by
              simp only [ptoGoIdx, if_neg h1, if_neg h2]]
            have hinner : List.Pairwise (· < ·)
                (obIdx (some ⟨i, ⟨.output, line ++ "\n"⟩⟩) ++ rest.map Prod.fst) := by
              simp only [obIdx, List.singleton_append]
              refine List.Pairwise.sublist ?_ h
              simp only [obIdx, List.map_cons, List.singleton_append]
              exact List.sublist_cons_self j _
            obtain ⟨hs, hm⟩ := ih _ hinner
            simp only [List.map_cons]
            constructor
            · rw [List.pairwise_cons]
              refine ⟨?_, hs⟩
              intro b hb
              have hb' := hm b hb
              simp only [obIdx, List.singleton_append] at hb'
              refine obIdx_lt (some ⟨j, ⟨.command, ct⟩⟩) _ h j (by simp [obIdx]) b ?_
              simpa [List.map_cons] using hb'
            · intro k hk
              rcases List.mem_cons.mp hk with hk | hk
              · simp [obIdx, hk]
              · have := hm k hk
                simp only [obIdx, List.singleton_append] at this
                simp only [obIdx, List.map_cons, List.singleton_append]
                exact List.mem_cons_of_mem _ this
          | output =>
            rw [show ptoGoIdx (some ⟨j, ⟨.output, ct⟩⟩) ((i, line) :: rest) =
                ptoGoIdx (some ⟨j, ⟨.output, ct ++ line ++ "\n"⟩⟩) rest by
              simp only [ptoGoIdx, if_neg h1, if_neg h2]]
            obtain ⟨hs, hm⟩ := ih (some ⟨j, ⟨.output, ct ++ line ++ "\n"⟩⟩)
              (by simpa [obIdx] using h.sublist hsub)
            refine ⟨hs, fun k hk => ?_⟩
            have := hm k hk
            simp only [obIdx] at this ⊢
            exact hsub.subset this

theorem parseTerminalOutput_lines_nl (output : String) :
    ∀ l ∈ jsSplitChar '\n' output, '\n' ∉ l.toList := by
  intro l hl
  unfold jsSplitChar at hl
  rcases List.mem_map.mp hl with ⟨cs, hcs, hmk⟩
  have := splitChList_not_mem '\n' output.toList cs hcs
  rw [← hmk]
  exact this

theorem parseTerminalOutput_good (output : String) :
    ∀ b ∈ parseTerminalOutput output, GoodBlock b :=
  ptoGo_good (jsSplitChar '\n' output) none (parseTerminalOutput_lines_nl output)
    (by simp)

/-- C6: every command block emitted by the block segmenter contains
exactly one line — `"$ "`, a non-empty newline-free extracted command, one
trailing newline — so no command block holds two commands or any output
line; output blocks are unconstrained in length; and the blocks are
emitted in the order their source lines appeared: erasing the provenance
tags of `parseTerminalOutputIdx` gives exactly `parseTerminalOutput`, and
the opening-line indices of the emitted blocks are strictly increasing. -/
theorem C6_command_blocks_singleton_and_ordered (output : String) :
    (∀ b ∈ parseTerminalOutput output, b.kind = BlockKind.command →
      ∃ c : String, b.content = "$ " ++ c ++ "\n" ∧ c ≠ "" ∧ '\n' ∉ c.toList) ∧
    parseTerminalOutput output = (parseTerminalOutputIdx output).map IdxBlock.blk ∧
    List.Pairwise (· < ·) ((parseTerminalOutputIdx output).map IdxBlock.idx) := by
  refine ⟨?_, ?_, ?_⟩
  · intro b hb hk
    have hg := parseTerminalOutput_good output b hb
    unfold GoodBlock at hg
    rw [hk] at hg
    exact hg
  · rw [parseTerminalOutputIdx, ptoGoIdx_erase]
    simp [parseTerminalOutput, jsSplitChar, List.map_map, Function.comp]
  · apply (ptoGoIdx_sorted ((jsSplitChar '\n' output).enum) none ?_).1
    simp only [obIdx, List.nil_append, List.enum_map_fst]
    exact List.pairwise_lt_range _

/-- C10: every emitted block has non-empty content — a command block is
exactly `"$ "` plus a non-empty command and newline, an output block's
content starts with a newline-terminated first line containing a
non-whitespace character — and consequently the body the renderer places
between the fences, `jsTrim b.content`, is never empty: no rendered
fenced code block of the Terminal Session section is empty after
trimming. -/
theorem C10_no_empty_blocks (output : String) :
    ∀ b ∈ parseTerminalOutput output,
      (b.kind = BlockKind.command → ∃ c : String, b.content = "$ " ++ c ++ "\n" ∧ c ≠ "") ∧
      (b.kind = BlockKind.output → ∃ l r : List Char,
        b.content.data = l ++ '\n' :: r ∧ '\n' ∉ l ∧ ∃ ch ∈ l, jsWs ch = false) ∧
      jsTrim b.content ≠ "" := by
  intro b hb
  have hg := parseTerminalOutput_good output b hb
  obtain ⟨k, ct⟩ := b
  cases k with
  | command =>
    obtain ⟨c, hc, hne, hnl⟩ := hg
    refine ⟨fun _ => ⟨c, hc, hne⟩, fun h => BlockKind.noConfusion h, ?_⟩
    simp only at hc
    refine jsTrim_ne_empty ct '$' ?_ (by decide)
    rw [show ct.toList = ct.data from rfl, hc]
    simp [String.data_append]
  | output =>
    obtain ⟨l, r, hdata, hnl, ch, hch, hw⟩ := hg
    refine ⟨fun h => BlockKind.noConfusion h, fun _ => ⟨l, r, hdata, hnl, ch, hch, hw⟩, ?_⟩
    refine jsTrim_ne_empty ct ch ?_ hw
    rw [show ct.toList = ct.data from rfl, hdata]
    exact List.mem_append.mpr (Or.inl hch)

theorem C10_no_empty_blocks_witness :
    Block.mk BlockKind.command "$ ls\n" ∈ parseTerminalOutput "$ ls\nfile.txt" ∧
    jsTrim (Block.mk BlockKind.command "$ ls\n").content ≠ "" :=
  ⟨by decide,
    (C10_no_empty_blocks "$ ls\nfile.txt" (Block.mk BlockKind.command "$ ls\n")
      (by decide)).2.2⟩

/-! ## C7: the timeline table -/

theorem bumpKey_map_fst (m : List (Option Int × Nat)) (k : Option Int) :
    (bumpKey m k).map Prod.fst =
      if k ∈ m.map Prod.fst then m.map Prod.fst else m.map Prod.fst ++ [k] := by
  induction m with
  | nil => simp [bumpKey]
  | cons p rest ih =>
    obtain ⟨k', n⟩ := p
    by_cases h : k' = k
    · simp [bumpKey, h]
    · simp only [bumpKey, if_neg h, List.map_cons, ih]
      have : k ∈ k' :: rest.map Prod.fst ↔ k ∈ rest.map Prod.fst := by
        constructor
        · intro hm
          rcases List.mem_cons.mp hm with h' | h'
          · exact absurd h'.symm h
          · exact h'
        · exact List.mem_cons_of_mem _
      by_cases h2 : k ∈ rest.map Prod.fst
      · simp [h2, this, if_pos]
      · rw [if_neg h2, if_neg (fun hm => h2 (this.mp hm))]
        simp

theorem lookupCount_bumpKey (m : List (Option Int × Nat)) (k k' : Option Int) :
    lookupCount (bumpKey m k) k' =
      if k' = k then lookupCount m k' + 1 else lookupCount m k' := by
  induction m with
  | nil =>
    simp only [bumpKey, lookupCount]
    by_cases h : k = k'
    · subst h
      simp
    · rw [if_neg h, if_neg (fun hh : k' = k => h hh.symm)]
  | cons p rest ih =>
    obtain ⟨k0, n⟩ := p
    simp only [bumpKey]
    by_cases h0 : k0 = k
    · subst h0
      simp only [if_pos rfl, lookupCount]
      by_cases h1 : k0 = k'
      · subst h1
        simp
      · rw [if_neg h1, if_neg h1, if_neg (fun hh : k' = k0 => h1 hh.symm)]
    · rw [if_neg h0]
      simp only [lookupCount]
      by_cases h1 : k0 = k'
      · subst h1
        rw [if_pos rfl, if_pos rfl, if_neg (fun hh : k0 = k => h0 hh)]
      · rw [if_neg h1, if_neg h1, ih]

theorem sum_bumpKey (m : List (Option Int × Nat)) (k : Option Int) :
    ((bumpKey m k).map Prod.snd).sum = (m.map Prod.snd).sum + 1 := by
  induction m with
  | nil => simp [bumpKey]
  | cons p rest ih =>
    obtain ⟨k0, n⟩ := p
    by_cases h : k0 = k
    · simp [bumpKey, h]
      omega
    · simp [bumpKey, h, ih]
      omega

theorem esb_foldl_lookup (events : List JsEvent) :
    ∀ (m : List (Option Int × Nat)) (k : Option Int),
      lookupCount (events.foldl (fun m e => bumpKey m (jsFloorKey e.time)) m) k =
        lookupCount m k + events.countP (fun e => jsFloorKey e.time = k) := by
  induction events with
  | nil => intro m k; simp
  | cons e es ih =>
    intro m k
    simp only [List.foldl_cons, List.countP_cons]
    rw [ih, lookupCount_bumpKey]
    by_cases h : jsFloorKey e.time = k
    · rw [if_pos h.symm]
      simp only [h]
      rw [if_pos (by simp)]
      omega
    · rw [if_neg (fun hh : k = jsFloorKey e.time => h hh.symm)]
      simp [h]

theorem bump_keys_mem (m : List (Option Int × Nat)) (k k' : Option Int) :
    k' ∈ (bumpKey m k).map Prod.fst ↔ k' ∈ m.map Prod.fst ∨ k' = k := by
  rw [bumpKey_map_fst]
  split
  · rename_i hin
    constructor
    · exact Or.inl
    · intro h
      rcases h with h | h
      · exact h
      · rwa [h]
  · constructor
    · intro h
      rcases List.mem_append.mp h with h | h
      · exact Or.inl h
      · exact Or.inr (List.mem_singleton.mp h)
    · intro h
      rcases h with h | h
      · exact List.mem_append.mpr (Or.inl h)
      · exact List.mem_append.mpr (Or.inr (List.mem_singleton.mpr h))

theorem esb_foldl_keys_mem (events : List JsEvent) :
    ∀ (m : List (Option Int × Nat)) (k : Option Int),
      (k ∈ (events.foldl (fun m e => bumpKey m (jsFloorKey e.time)) m).map Prod.fst ↔
        k ∈ m.map Prod.fst ∨ ∃ e ∈ events, jsFloorKey e.time = k) := by
  induction events with
  | nil => intro m k; simp
  | cons e es ih =>
    intro m k
    simp only [List.foldl_cons]
    rw [ih, bump_keys_mem]
    constructor
    · rintro ((h | h) | ⟨e', he', hk⟩)
      · exact Or.inl h
      · exact Or.inr ⟨e, List.mem_cons_self _ _, h.symm⟩
      · exact Or.inr ⟨e', List.mem_cons_of_mem _ he', hk⟩
    · rintro (h | ⟨e', he', hk⟩)
      · exact Or.inl (Or.inl h)
      · rcases List.mem_cons.mp he' with h' | h'
        · subst h'
          exact Or.inl (Or.inr hk.symm)
        · exact Or.inr ⟨e', h', hk⟩

theorem esb_foldl_keys_nodup (events : List JsEvent) :
    ∀ m : List (Option Int × Nat), (m.map Prod.fst).Nodup →
      ((events.foldl (fun m e => bumpKey m (jsFloorKey e.time)) m).map Prod.fst).Nodup := by
  induction events with
  | nil => intro m h; simpa using h
  | cons e es ih =>
    intro m h
    simp only [List.foldl_cons]
    apply ih
    rw [bumpKey_map_fst]
    split
    · exact h
    · rename_i hnm
      rw [List.nodup_append]
      exact ⟨h, List.nodup_singleton _, by
        intro a ha hb
        rw [List.mem_singleton] at hb
        subst hb
        exact hnm ha⟩

theorem esb_foldl_sum (events : List JsEvent) :
    ∀ m : List (Option Int × Nat),
      ((events.foldl (fun m e => bumpKey m (jsFloorKey e.time)) m).map Prod.snd).sum =
        (m.map Prod.snd).sum + events.length := by
  induction events with
  | nil => intro m; simp
  | cons e es ih =>
    intro m
    simp only [List.foldl_cons, List.length_cons]
    rw [ih, sum_bumpKey]
    omega

theorem sum_lookup_over_keys (m : List (Option Int × Nat)) (h : (m.map Prod.fst).Nodup) :
    ((m.map Prod.fst).map (fun k => lookupCount m k)).sum = (m.map Prod.snd).sum := by
  induction m with
  | nil => simp
  | cons p rest ih =>
    obtain ⟨k0, n⟩ := p
    simp only [List.map_cons, List.nodup_cons] at h ⊢
    obtain ⟨hnm, hnd⟩ := h
    simp only [List.sum_cons]
    have h1 : lookupCount ((k0, n) :: rest) k0 = n := by simp [lookupCount]
    have h2 : (rest.map Prod.fst).map (fun k => lookupCount ((k0, n) :: rest) k) =
        (rest.map Prod.fst).map (fun k => lookupCount rest k) := by
      apply List.map_congr_left
      intro k hk
      have : ¬ k0 = k := fun hh => hnm (hh ▸ hk)
      simp [lookupCount, this]
    rw [h1, h2, ih hnd]

theorem allSome_filterMap_id (ks : List (Option Int)) (h : ∀ k ∈ ks, k.isSome = true) :
    (ks.filterMap id).map some = ks := by
  induction ks with
  | nil => rfl
  | cons k rest ih =>
    cases k with
    | none =>
      have := h none (List.mem_cons_self _ _)
      simp at this
    | some t =>
      simp only [List.filterMap_cons]
      simp only [id]
      rw [List.map_cons]
      rw [ih (fun k hk => h k (List.mem_cons_of_mem _ hk))]

/-- C7: for every parsed event sequence whose times are numbers (the
shape the `CastEvent` interface declares; a non-numeric time would
produce a `NaN` bucket), the timeline table has one row per integer
second with at least one event and no zero-count rows, each row's count
is the number of events whose floored time is that second, rows are
strictly ascending by second, and the counts sum to the total number of
parsed events of all types. -/
theorem C7_timeline_table (events : List JsEvent)
    (hnum : ∀ e ∈ events, (jsToNumber e.time).isSome = true) :
    (∀ p ∈ timelineRows events,
      p.2 = events.countP (fun e => jsFloorKey e.time = p.1) ∧ 0 < p.2) ∧
    (∀ t : Int, (some t ∈ (timelineRows events).map Prod.fst ↔
      ∃ e ∈ events, jsFloorKey e.time = some t)) ∧
    List.Pairwise (fun p q : Option Int × Nat =>
      ∀ a b : Int, p.1 = some a → q.1 = some b → a < b) (timelineRows events) ∧
    ((timelineRows events).map Prod.snd).sum = events.length := by
  have hesb : eventsBySecond events =
      events.foldl (fun m e => bumpKey m (jsFloorKey e.time)) [] := rfl
  have hkmem : ∀ k, k ∈ (eventsBySecond events).map Prod.fst ↔
      ∃ e ∈ events, jsFloorKey e.time = k := by
    intro k
    rw [hesb, esb_foldl_keys_mem]
    simp
  have hkeysome : ∀ k ∈ (eventsBySecond events).map Prod.fst, k.isSome = true := by
    intro k hk
    obtain ⟨e, he, hkey⟩ := (hkmem k).mp hk
    rw [← hkey]
    unfold jsFloorKey
    cases hj : jsToNumber e.time with
    | none =>
      have := hnum e he
      rw [hj] at this
      simp at this
    | some q => simp
  have hnodup : ((eventsBySecond events).map Prod.fst).Nodup := by
    rw [hesb]
    exact esb_foldl_keys_nodup events [] (by simp)
  have hvals : (((eventsBySecond events).map Prod.fst).filterMap id).map some =
      (eventsBySecond events).map Prod.fst :=
    allSome_filterMap_id _ hkeysome
  have hfilter : ((eventsBySecond events).map Prod.fst).filter (fun k => k.isNone) = [] := by
    rw [List.filter_eq_nil_iff]
    intro k hk
    have := hkeysome k hk
    cases k with
    | none => simp at this
    | some t => simp
  have hsortk : sortKeys ((eventsBySecond events).map Prod.fst) =
      ((((eventsBySecond events).map Prod.fst).filterMap id).insertionSort (· ≤ ·)).map
        some := by
    rw [sortKeys, hfilter, List.append_nil]
  have hrows : timelineRows events =
      (sortKeys ((eventsBySecond events).map Prod.fst)).map
        (fun k => (k, lookupCount (eventsBySecond events) k)) := rfl
  have hsortmem : ∀ k, k ∈ sortKeys ((eventsBySecond events).map Prod.fst) ↔
      k ∈ (eventsBySecond events).map Prod.fst := by
    intro k
    rw [hsortk]
    constructor
    · intro h
      obtain ⟨t, ht, hk⟩ := List.mem_map.mp h
      rw [List.mem_insertionSort (· ≤ ·)] at ht
      rw [← hk, ← hvals]
      exact List.mem_map.mpr ⟨t, ht, rfl⟩
    · intro h
      rw [← hvals] at h
      obtain ⟨t, ht, hk⟩ := List.mem_map.mp h
      exact List.mem_map.mpr ⟨t, (List.mem_insertionSort (· ≤ ·)).mpr ht, hk⟩
  have hlookup : ∀ k, lookupCount (eventsBySecond events) k =
      events.countP (fun e => jsFloorKey e.time = k) := by
    intro k
    rw [hesb, esb_foldl_lookup]
    simp [lookupCount]
  refine ⟨?_, ?_, ?_, ?_⟩
  · intro p hp
    rw [hrows] at hp
    obtain ⟨k, hk, hpk⟩ := List.mem_map.mp hp
    rw [← hpk]
    simp only
    refine ⟨hlookup k, ?_⟩
    rw [hlookup k]
    obtain ⟨e, he, hkey⟩ := (hkmem k).mp ((hsortmem k).mp hk)
    rw [List.countP_pos_iff]
    exact ⟨e, he, by simp [hkey]⟩
  · intro t
    have hfst : (timelineRows events).map Prod.fst =
        sortKeys ((eventsBySecond events).map Prod.fst) := by
      rw [hrows, List.map_map]
      have hcomp : (Prod.fst ∘ fun k : Option Int =>
          (k, lookupCount (eventsBySecond events) k)) = id := by
        funext k
        rfl
      rw [hcomp, List.map_id]
    rw [hfst, hsortmem, hkmem]
  · rw [hrows, List.pairwise_map, hsortk, List.pairwise_map]
    have hsorted : List.Pairwise (· ≤ ·)
        ((((eventsBySecond events).map Prod.fst).filterMap id).insertionSort (· ≤ ·)) :=
      List.sorted_insertionSort _ _
    have hvnodup : (((eventsBySecond events).map Prod.fst).filterMap id).Nodup := by
      refine List.Nodup.filterMap ?_ hnodup
      intro a a' b hb hb'
      simp only [id, Option.mem_def] at hb hb'
      rw [hb, ← hb']
    have hsnodup : ((((eventsBySecond events).map Prod.fst).filterMap id).insertionSort
        (· ≤ ·)).Nodup :=
      (List.perm_insertionSort _ _).nodup_iff.mpr hvnodup
    have hlt : List.Pairwise (· < ·)
        ((((eventsBySecond events).map Prod.fst).filterMap id).insertionSort (· ≤ ·)) := by
      refine (hsorted.and hsnodup).imp ?_
      intro a b hab
      exact lt_of_le_of_ne hab.1 hab.2
    refine hlt.imp ?_
    intro a b hab x y hx hy
    simp only [Option.some.injEq] at hx hy
    rw [← hx, ← hy]
    exact hab
  · have hsnd : (timelineRows events).map Prod.snd =
        (sortKeys ((eventsBySecond events).map Prod.fst)).map
          (fun k => lookupCount (eventsBySecond events) k) := by
      rw [hrows, List.map_map]
      rfl
    rw [hsnd]
    have hperm : List.Perm (sortKeys ((eventsBySecond events).map Prod.fst))
        ((eventsBySecond events).map Prod.fst) := by
      rw [hsortk]
      nth_rewrite 2 [← hvals]
      exact (List.perm_insertionSort _ _).map some
    have hsum := (hperm.map (fun k => lookupCount (eventsBySecond events) k)).sum_eq
    rw [hsum, sum_lookup_over_keys _ hnodup, hesb, esb_foldl_sum]
    simp

theorem C7_timeline_table_witness :
    (∀ e ∈ c7Sample, (jsToNumber e.time).isSome = true) ∧
    ((∀ p ∈ timelineRows c7Sample,
      p.2 = c7Sample.countP (fun e => jsFloorKey e.time = p.1) ∧ 0 < p.2) ∧
    (∀ t : Int, (some t ∈ (timelineRows c7Sample).map Prod.fst ↔
      ∃ e ∈ c7Sample, jsFloorKey e.time = some t)) ∧
    List.Pairwise (fun p q : Option Int × Nat =>
      ∀ a b : Int, p.1 = some a → q.1 = some b → a < b) (timelineRows c7Sample) ∧
    ((timelineRows c7Sample).map Prod.snd).sum = c7Sample.length) :=
  ⟨by decide, C7_timeline_table c7Sample (by decide)⟩

/-! ## C3: output aggregation -/

theorem aggregate_go (events : List JsEvent) (acc : String) :
    events.foldl
        (fun acc e => if strictEqStr e.type "o" then acc ++ jsValToString e.data else acc) acc
      = acc ++
        String.join ((events.filter (fun e => strictEqStr e.type "o")).map
          (fun e => jsValToString e.data)) := by
  induction events generalizing acc with
  | nil => simp [String.join]
  | cons e es ih =>
    by_cases h : strictEqStr e.type "o" = true
    · simp only [List.foldl_cons, List.filter_cons, h, if_pos, List.map_cons]
      rw [ih]
      apply String.ext
      simp [String.join_eq]
    · simp only [List.foldl_cons, List.filter_cons, h, List.map_cons]
      simp only [Bool.false_eq_true, if_false]
      rw [ih]

/-- C3: for every event sequence, the aggregated terminal text is the
concatenation, in sequence order, of the (string-coerced) `data` fields of
exactly the events whose `type` is the string `"o"`; all other events
contribute nothing.  The second conjunct records that on a `data` field
that is a string — the shape the `CastEvent` interface declares — the
coercion is the identity, so the aggregate is literally the concatenation
of the `data` fields. -/
theorem C3_aggregation_is_filtered_concat :
    (∀ events : List JsEvent,
      aggregateOutput events =
        String.join ((events.filter (fun e => strictEqStr e.type "o")).map
          (fun e => jsValToString e.data))) ∧
    (∀ s : String, jsValToString (JsVal.val (Json.str s)) = s) := by
  constructor
  · intro events
    have h := aggregate_go events ""
    simpa [aggregateOutput] using h
  · intro s
    rfl

/-! ## C1: header failure and the empty input -/

/-- C1 counterexample: the claim is false on two concrete inputs.
The empty string (empty after trimming) does **not** produce the fixed
"empty recording" diagnostic (`"Empty cast file"`): `"".split('\n')` is
`[""]`, of length 1, so the guard `lines.length === 0` can never fire and
the empty input falls into header parsing, producing the invalid-header
diagnostic instead.  `"[1,2,3]"` — whose first line is valid JSON but
not a single object — is not rejected with the invalid-header diagnostic:
a full document with a Timeline section is produced.  And the first line
`"null"` parses, after which the member access `header.title` throws on
`null` and the outer catch returns the generic conversion-error block —
a third behaviour the claim does not describe. -/
theorem C1_counterexample :
    convertCastToMarkdown (fun _ => "") "" "a.cast" =
        "```\nInvalid cast file format: Could not parse header\n```" ∧
    ("```\nInvalid cast file format: Could not parse header\n```" : String) ≠
        "```\nEmpty cast file\n```" ∧
    strIncludes (convertCastToMarkdown (fun _ => "") "[1,2,3]" "a.cast") "## Timeline" = true ∧
    convertCastToMarkdown (fun _ => "") "null" "a.cast" =
        "```\nError converting cast file to markdown\n```" := by
  refine ⟨by decide, by decide, by decide, by decide⟩

/-- C1 (amended): whenever the first line of the trimmed input fails JSON
parsing — which includes the input that is empty after trimming, whose
single line `""` fails to parse — the conversion returns exactly the fixed
invalid-header diagnostic code block: no events are processed, no blocks
are produced, and the result contains no metadata, terminal-session or
timeline section. -/
theorem C1_header_failure_yields_diagnostic (toLocale : JsVal → String)
    (castContent fileName : String)
    (h : Json.parse ((jsSplitChar '\n' (jsTrim castContent)).headD "") = none) :
    convertCastToMarkdown toLocale castContent fileName =
      "```\nInvalid cast file format: Could not parse header\n```" := by
  unfold convertCastToMarkdown
  have hne : (jsSplitChar '\n' (jsTrim castContent)).length ≠ 0 := by
    intro hlen
    exact jsSplitChar_ne_nil '\n' (jsTrim castContent) (List.length_eq_zero.mp hlen)
  rw [if_neg hne, h]

theorem C1_header_failure_witness :
    Json.parse ((jsSplitChar '\n' (jsTrim "")).headD "") = none ∧
    convertCastToMarkdown (fun _ => "x") "" "a.cast" =
      "```\nInvalid cast file format: Could not parse header\n```" :=
  ⟨rfl, C1_header_failure_yields_diagnostic (fun _ => "x") "" "a.cast" rfl⟩

/-! ## C2: per-line event tolerance -/

/-- C2 counterexample: the line `"{}"` is valid JSON but not a 3-element
structure, yet it is **not** skipped — the loop pushes an event whose
three fields are all `undefined`, and that event counts toward the
timeline total.  (The braces are written `\x7b\x7d`.) -/
theorem C2_counterexample :
    Json.parse "\x7b\x7d" = some (Json.obj []) ∧
    (parseEvents ["\x7b\x7d"]).length = 1 ∧
    ((parseEvents ["\x7b\x7d"]).headD ⟨.val .null, .val .null, .val .null⟩).time.isUndef
      = true := by
  refine ⟨rfl, rfl, rfl⟩

theorem parseEvents_eq_filterMap (lines : List String) :
    parseEvents lines = lines.filterMap evLine := by
  induction lines with
  | nil => rfl
  | cons l ls ih =>
    simp only [parseEvents, evLine, List.filterMap_cons]
    by_cases h : jsTrim l = ""
    · simp [h, ih]
    · cases hp : Json.parse l with
      | none => simp [h, hp, ih]
      | some j => cases j <;> simp [h, hp, ih]

/-- C2 (amended): each non-empty line after the header is independently
JSON-parsed; a line is skipped exactly when it is blank, fails JSON
parsing, or parses to JSON `null` (indexing `null` throws, and the catch
skips the line).  Every other successfully parsed line — of any shape —
yields exactly one event built from its elements at indices 0, 1, 2
(`undefined` where absent), and the surviving events appear in original
input order: the loop is the `filterMap` of its line function, and
inserting or removing lines affects only their own contribution. -/
theorem C2_event_tolerance :
    (∀ lines : List String, parseEvents lines = lines.filterMap evLine) ∧
    (∀ xs ys : List String, parseEvents (xs ++ ys) = parseEvents xs ++ parseEvents ys) := by
  refine ⟨parseEvents_eq_filterMap, ?_⟩
  intro xs ys
  simp [parseEvents_eq_filterMap]

/-! ## C4: the redraw-collapse rule and its documented example -/

/-- C4: the collapse branch requires strictly more than three
whitespace-run-separated segments (`parts.length > 3`), so the spec's (and
the source comment's own) example line — three repetitions of
`Preparing nodes` — splits into exactly three segments, fails the guard
and is kept whole: the cleaned text is *not* reduced to the single line
`"Preparing nodes"`; only the carriage return is removed. -/
theorem C4_three_segments_not_collapsed :
    stripAnsiCodes "Preparing nodes   Preparing nodes   Preparing nodes \r\n" =
        "Preparing nodes   Preparing nodes   Preparing nodes \n" ∧
    (splitWs2 "Preparing nodes   Preparing nodes   Preparing nodes ".toList).length = 3 ∧
    stripAnsiCodes "Preparing nodes   Preparing nodes   Preparing nodes \r\n" ≠
        "Preparing nodes" := by
  refine ⟨by decide, by decide, by decide⟩

/-! ## C5: the capitalized-word-then-colon rule -/

/-- C5 counterexample: `"Ab@host:~ ls"` matches the
capitalized-word-then-colon pattern, contains neither `$` nor `#`, and is
not the image-version exception line — yet `isCommandLine` classifies it
as a command (the `user@host` rule fires, because the capital-colon branch
only ever returns for lines containing `cilium image` and otherwise falls
through). -/
theorem C5_counterexample :
    capColonTest (jsTrimList "Ab@host:~ ls".toList) = true ∧
    containsList (jsTrimList "Ab@host:~ ls".toList) "$".toList = false ∧
    containsList (jsTrimList "Ab@host:~ ls".toList) "#".toList = false ∧
    containsList (jsTrimList "Ab@host:~ ls".toList) "cilium image".toList = false ∧
    isCommandLine "Ab@host:~ ls" = true := by
  refine ⟨by decide, by decide, by decide, by decide, by decide⟩

/-- C5 (amended): within the capital-colon rule the exception and the
rule are the other way round: a line matching the
capitalized-word-then-colon pattern without `$`/`#` is forced
NOT-a-command exactly when it **is** the recognized image-version
exception (it contains `cilium image`); every other capital-colon line
falls through to the lower-priority rules, which may classify it as a
command.  (The hypotheses before the capital-colon ones state that no
earlier, higher-priority rule fires.) -/
theorem C5_capcolon_exception_not_command (line : String)
    (h0 : (jsTrimList line.toList).isEmpty = false)
    (h1 : emojiStart (jsTrimList line.toList) = false)
    (h2 : sentenceOpener (jsTrimList line.toList) = false)
    (h3 : startsList (jsTrimList line.toList) "==>".toList = false)
    (h4 : startsList (jsTrimList line.toList) "---".toList = false)
    (h5 : capColonTest (jsTrimList line.toList) = true)
    (h6 : containsList (jsTrimList line.toList) "$".toList = false)
    (h7 : containsList (jsTrimList line.toList) "#".toList = false)
    (h8 : containsList (jsTrimList line.toList) "cilium image".toList = true) :
    isCommandLine line = false := by
  simp only [String.toList] at h0 h1 h2 h3 h4 h5 h6 h7 h8
  simp only [isCommandLine, String.toList]
  rw [if_neg (by simp [h0]), if_neg (by simp [h1]), if_neg (by simp [h2]),
    if_neg (by simp [h3, h4]), if_pos (by simp [h5, h6, h7, h8])]

theorem C5_capcolon_exception_witness :
    ((jsTrimList "Default cilium image (default): v1.18.1".toList).isEmpty = false ∧
      capColonTest (jsTrimList "Default cilium image (default): v1.18.1".toList) = true ∧
      containsList (jsTrimList "Default cilium image (default): v1.18.1".toList)
        "cilium image".toList = true) ∧
    isCommandLine "Default cilium image (default): v1.18.1" = false :=
  ⟨⟨by decide, by decide, by decide⟩,
    C5_capcolon_exception_not_command "Default cilium image (default): v1.18.1"
      (by decide) (by decide) (by decide) (by decide) (by decide) (by decide) (by decide)
      (by decide) (by decide)⟩

/-! ## C9: the batch endpoint -/

/-- C9 counterexample: a batch request with an empty `files` list is
answered by the early `'No files selected'` return, whose JSON carries
**no** `count` field at all — so "the returned count always equals the
number of entries returned" fails on this request (`none ≠ some 0`). -/
theorem C9_counterexample :
    (postConvert (fun _ => "") true (some []) (fun _ => some "x")).markdowns = [] ∧
    (postConvert (fun _ => "") true (some []) (fun _ => some "x")).count = none ∧
    ¬ ((postConvert (fun _ => "") true (some []) (fun _ => some "x")).count =
        some (postConvert (fun _ => "") true (some []) (fun _ => some "x")).markdowns.length) := by
  refine ⟨rfl, rfl, by decide⟩

/-- C9 (amended): on every batch request that reaches the conversion loop
(the logging directory exists and the request's file list is non-empty),
an identifier that does not end in `.cast` is silently omitted from the
result even when its content exists, exactly as an identifier with no
content is; and the returned count equals the number of
`(fileName, markdown)` entries actually returned.  Requests with a
missing or empty file list (and requests when the directory is missing)
are answered early with an empty result, a message, and no count field. -/
theorem C9_batch_filtering (toLocale : JsVal → String) (files : List String)
    (contentOf : String → Option String) (hne : files ≠ []) :
    (postConvert toLocale true (some files) contentOf).count =
        some (postConvert toLocale true (some files) contentOf).markdowns.length ∧
    (∀ f ∈ files, endsList f.toList ".cast".toList = false →
      f ∉ (postConvert toLocale true (some files) contentOf).markdowns.map Prod.fst) ∧
    (∀ f : String, contentOf f = none →
      f ∉ (postConvert toLocale true (some files) contentOf).markdowns.map Prod.fst) := by
  have hfe : files.isEmpty = false := by
    cases files with
    | nil => exact absurd rfl hne
    | cons a l => rfl
  have hdata : (postConvert toLocale true (some files) contentOf).markdowns =
      (files.filter (fun f => endsList f.toList ".cast".toList)).filterMap
        (fun f => (contentOf f).map (fun c => (f, convertCastToMarkdown toLocale c f))) := by
    simp [postConvert, hfe]
  have hcount : (postConvert toLocale true (some files) contentOf).count =
      some (postConvert toLocale true (some files) contentOf).markdowns.length := by
    simp [postConvert, hfe]
  refine ⟨hcount, ?_, ?_⟩
  · intro f hf hcast hmem
    rw [hdata, List.mem_map] at hmem
    obtain ⟨p, hp, hfst⟩ := hmem
    rw [List.mem_filterMap] at hp
    obtain ⟨g, hg, hmap⟩ := hp
    obtain ⟨-, hcastg⟩ := List.mem_filter.mp hg
    cases hcg : contentOf g with
    | none => rw [hcg] at hmap; exact Option.noConfusion hmap
    | some c =>
      rw [hcg] at hmap
      have hpg : p = (g, convertCastToMarkdown toLocale c g) :=
        ((Option.some.injEq _ _).mp hmap).symm
      rw [hpg] at hfst
      simp only at hfst
      rw [hfst] at hcastg
      rw [hcastg] at hcast
      exact Bool.noConfusion hcast
  · intro f hcf hmem
    rw [hdata, List.mem_map] at hmem
    obtain ⟨p, hp, hfst⟩ := hmem
    rw [List.mem_filterMap] at hp
    obtain ⟨g, hg, hmap⟩ := hp
    cases hcg : contentOf g with
    | none => rw [hcg] at hmap; exact Option.noConfusion hmap
    | some c =>
      rw [hcg] at hmap
      have hpg : p = (g, convertCastToMarkdown toLocale c g) :=
        ((Option.some.injEq _ _).mp hmap).symm
      rw [hpg] at hfst
      simp only at hfst
      rw [hfst] at hcg
      rw [hcf] at hcg
      exact Option.noConfusion hcg

theorem C9_batch_filtering_witness :
    (["a.cast", "b.txt"] ≠ ([] : List String)) ∧
    ((postConvert (fun _ => "") true (some ["a.cast", "b.txt"])
        (fun s => if s = "a.cast" then some "x" else none)).count =
      some (postConvert (fun _ => "") true (some ["a.cast", "b.txt"])
        (fun s => if s = "a.cast" then some "x" else none)).markdowns.length ∧
      (∀ f ∈ ["a.cast", "b.txt"], endsList f.toList ".cast".toList = false →
        f ∉ (postConvert (fun _ => "") true (some ["a.cast", "b.txt"])
          (fun s => if s = "a.cast" then some "x" else none)).markdowns.map Prod.fst) ∧
      (∀ f : String, (if f = "a.cast" then some "x" else none) = none →
        f ∉ (postConvert (fun _ => "") true (some ["a.cast", "b.txt"])
          (fun s => if s = "a.cast" then some "x" else none)).markdowns.map Prod.fst)) :=
  ⟨by decide,
    C9_batch_filtering (fun _ => "") ["a.cast", "b.txt"]
      (fun s => if s = "a.cast" then some "x" else none) (by decide)⟩

/-! ## C8: idempotence of the stripper -/

/-- C8 counterexample: the stripper is not idempotent.  On
`"abcdefghijkl\n%\nabcdefghijkl"` the first application drops the lone
`%` line, leaving two equal adjacent 12-character lines; the second
application's duplicate-line filter (which consults the *original*
neighbour, not the filtered one) then removes one of them. -/
theorem C8_counterexample :
    stripAnsiCodes (stripAnsiCodes "abcdefghijkl\n%\nabcdefghijkl") ≠
      stripAnsiCodes "abcdefghijkl\n%\nabcdefghijkl" := by
  decide

theorem plainChars_notTrigger : ∀ c ∈ plainChars, notTrigger c = true := by decide

theorem notTrigger_nl : notTrigger '\n' = true := by decide

theorem notTrigger_unpack (c : Char) (h : notTrigger c = true) :
    c ≠ '\x1b' ∧ c ≠ '[' ∧ c ≠ ']' ∧
    ¬ (0x2800 ≤ c.toNat ∧ c.toNat ≤ 0x28ff) ∧
    ¬ (c.toNat ≤ 8 ∨ c.toNat = 0xb ∨ c.toNat = 0xc ∨
        (0xe ≤ c.toNat ∧ c.toNat ≤ 0x1f) ∨ c.toNat = 0x7f) ∧
    c ≠ '\r' := by
  unfold notTrigger at h
  exact of_decide_eq_true h

theorem oscEscM_plain (c : Char) (cs : List Char) (h : notTrigger c = true) :
    oscEscM (c :: cs) = none := by
  simp only [oscEscM]
  rw [if_neg (notTrigger_unpack c h).1]

theorem oscNumM_plain (c : Char) (cs : List Char) (h : notTrigger c = true) :
    oscNumM (c :: cs) = none := by
  simp only [oscNumM]
  rw [if_neg (notTrigger_unpack c h).2.2.1]

theorem csiEscM_plain (c : Char) (cs : List Char) (h : notTrigger c = true) :
    csiEscM (c :: cs) = none := by
  simp only [csiEscM]
  rw [if_neg (notTrigger_unpack c h).1]

theorem brackSeq1M_plain (c : Char) (cs : List Char) (h : notTrigger c = true) :
    brackSeq1M (c :: cs) = none := by
  simp only [brackSeq1M]
  rw [if_neg (notTrigger_unpack c h).2.1]

theorem escEqM_plain (c : Char) (cs : List Char) (h : notTrigger c = true) :
    escEqM (c :: cs) = none := by
  simp only [escEqM]
  rw [if_neg (notTrigger_unpack c h).1]

theorem escGenM_plain (c : Char) (cs : List Char) (h : notTrigger c = true) :
    escGenM (c :: cs) = none := by
  simp only [escGenM]
  rw [if_neg (notTrigger_unpack c h).1]

theorem iterm1337M_plain (c : Char) (cs : List Char) (h : notTrigger c = true) :
    iterm1337M (c :: cs) = none := by
  simp only [iterm1337M]
  rw [if_neg (notTrigger_unpack c h).1]

theorem iterm133M_plain (c : Char) (cs : List Char) (h : notTrigger c = true) :
    iterm133M (c :: cs) = none := by
  simp only [iterm133M]
  rw [if_neg (notTrigger_unpack c h).1]

theorem m133M_plain (c : Char) (cs : List Char) (h : notTrigger c = true) :
    m133M (c :: cs) = none := by
  simp only [m133M]
  rw [if_neg (notTrigger_unpack c h).2.2.1]

theorem m1337M_plain (c : Char) (cs : List Char) (h : notTrigger c = true) :
    m1337M (c :: cs) = none := by
  simp only [m1337M]
  rw [if_neg (notTrigger_unpack c h).2.2.1]

theorem brackSeq2M_plain (c : Char) (cs : List Char) (h : notTrigger c = true) :
    brackSeq2M (c :: cs) = none := by
  simp only [brackSeq2M]
  rw [if_neg (notTrigger_unpack c h).2.1]

theorem brackLtM_plain (c : Char) (cs : List Char) (h : notTrigger c = true) :
    brackLtM (c :: cs) = none := by
  simp only [brackLtM]
  rw [if_neg (notTrigger_unpack c h).2.1]

theorem brailleM_plain (c : Char) (cs : List Char) (h : notTrigger c = true) :
    brailleM (c :: cs) = none := by
  simp only [brailleM]
  rw [if_neg (notTrigger_unpack c h).2.2.2.1]

theorem ctrlM_plain (c : Char) (cs : List Char) (h : notTrigger c = true) :
    ctrlM (c :: cs) = none := by
  simp only [ctrlM]
  rw [if_neg (notTrigger_unpack c h).2.2.2.2.1]

theorem crM_plain (c : Char) (cs : List Char) (h : notTrigger c = true) :
    crM (c :: cs) = none := by
  simp only [crM]
  rw [if_neg (notTrigger_unpack c h).2.2.2.2.2]

theorem stripAllF_id (m : List Char → Option Nat)
    (hm : ∀ (c : Char) (cs : List Char), notTrigger c = true → m (c :: cs) = none) :
    ∀ (fuel : Nat) (cs : List Char), (∀ c ∈ cs, notTrigger c = true) →
      stripAllF m fuel cs = cs := by
  intro fuel
  induction fuel with
  | zero =>
    intro cs _
    cases cs with
    | nil => rfl
    | cons c cs' => rfl
  | succ f ih =>
    intro cs h
    cases cs with
    | nil => rfl
    | cons c cs' =>
      simp only [stripAllF, hm c cs' (h c (List.mem_cons_self _ _))]
      exact congrArg (c :: ·) (ih cs' (fun d hd => h d (List.mem_cons_of_mem _ hd)))

theorem stripAll_plain (m : List Char → Option Nat)
    (hm : ∀ (c : Char) (cs : List Char), notTrigger c = true → m (c :: cs) = none)
    (cs : List Char) (h : ∀ c ∈ cs, notTrigger c = true) : stripAll m cs = cs :=
  stripAllF_id m hm cs.length cs h

theorem stripControlSequences_plain (cs : List Char)
    (h : ∀ c ∈ cs, notTrigger c = true) : stripControlSequences cs = cs := by
  simp only [stripControlSequences]
  rw [stripAll_plain oscEscM oscEscM_plain cs h,
    stripAll_plain oscNumM oscNumM_plain cs h,
    stripAll_plain csiEscM csiEscM_plain cs h,
    stripAll_plain brackSeq1M brackSeq1M_plain cs h,
    stripAll_plain escEqM escEqM_plain cs h,
    stripAll_plain escGenM escGenM_plain cs h,
    stripAll_plain iterm1337M iterm1337M_plain cs h,
    stripAll_plain iterm133M iterm133M_plain cs h,
    stripAll_plain m133M m133M_plain cs h,
    stripAll_plain m1337M m1337M_plain cs h,
    stripAll_plain brackSeq2M brackSeq2M_plain cs h,
    stripAll_plain brackLtM brackLtM_plain cs h,
    stripAll_plain brailleM brailleM_plain cs h,
    stripAll_plain brailleM brailleM_plain cs h,
    stripAll_plain ctrlM ctrlM_plain cs h,
    stripAll_plain crM crM_plain cs h]

theorem plainMem_facts : ∀ c ∈ plainChars,
    jsWs c = decide (c = ' ') ∧ ¬ c = '%' ∧ isDigit c = false ∧
    isUpperAlpha c = false ∧ isPromptMarker c = false ∧
    ¬ (c = '>' ∨ c = '[' ∨ c = '<' ∨ c = ']') ∧
    ¬ c = 'P' ∧ ¬ c = 'W' ∧ ¬ c = 'S' ∧ ¬ c = 'I' ∧ ¬ c = 'J' := by
  decide

theorem plainChar_mem (c : Char) (h : plainChar c = true) : c ∈ plainChars := by
  simpa [plainChar] using h

theorem plainLine_parts (l : List Char) (h : plainLine l = true) :
    l ≠ [] ∧ (∀ c ∈ l, plainChar c = true) ∧
    (∀ c cs, l = c :: cs → c ≠ ' ') ∧ (∀ c cs, l.reverse = c :: cs → c ≠ ' ') ∧
    noDoubleSpace l = true := by
  simp only [plainLine, Bool.and_eq_true] at h
  obtain ⟨⟨⟨⟨h1, h2⟩, h3⟩, h4⟩, h5⟩ := h
  refine ⟨?_, ?_, ?_, ?_, h5⟩
  · intro hl
    rw [hl] at h1
    simp at h1
  · intro c hc
    exact List.all_eq_true.mp h2 c hc
  · intro c cs hl
    rw [hl] at h3
    simpa using h3
  · intro c cs hl
    rw [hl] at h4
    simpa using h4

theorem startsList_char_mem (pat : List Char) : ∀ text : List Char,
    startsList text pat = true → ∀ c ∈ pat, c ∈ text := by
  induction pat with
  | nil =>
    intro text _ c hc
    simp at hc
  | cons p ps ih =>
    intro text h c hc
    cases text with
    | nil => simp [startsList] at h
    | cons d ts =>
      simp only [startsList, Bool.and_eq_true, decide_eq_true_eq] at h
      rcases List.mem_cons.mp hc with h' | h'
      · rw [h', ← h.1]
        exact List.mem_cons_self _ _
      · exact List.mem_cons_of_mem _ (ih ts h.2 c h')

theorem containsList_char_mem (pat : List Char) : ∀ text : List Char,
    containsList text pat = true → ∀ c ∈ pat, c ∈ text := by
  intro text
  induction text with
  | nil =>
    intro h c hc
    rw [containsList] at h
    cases pat with
    | nil => simp at hc
    | cons p ps => simp [startsList] at h
  | cons d ts ih =>
    intro h c hc
    rw [containsList] at h
    rcases Bool.or_eq_true_iff.mp h with h' | h'
    · exact startsList_char_mem pat (d :: ts) h' c hc
    · exact List.mem_cons_of_mem _ (ih h' c hc)

theorem containsList_false_of_missing (t pat : List Char) (w : Char) (hw : w ∈ pat)
    (hmiss : w ∉ t) : containsList t pat = false := by
  cases hc : containsList t pat with
  | false => rfl
  | true => exact absurd (containsList_char_mem pat t hc w hw) hmiss

theorem splitChList_no_sep (sep : Char) : ∀ l : List Char, sep ∉ l →
    splitChList sep l = [l] := by
  intro l
  induction l with
  | nil => intro _; rfl
  | cons c cs ih =>
    intro h
    have hc : c ≠ sep := fun hh => h (hh ▸ List.mem_cons_self _ _)
    have hcs : sep ∉ cs := fun hh => h (List.mem_cons_of_mem _ hh)
    simp only [splitChList, if_neg (fun hh : c = sep => hc hh)]
    rw [ih hcs]

theorem splitChList_append (sep : Char) : ∀ (l rest : List Char), sep ∉ l →
    splitChList sep (l ++ sep :: rest) = l :: splitChList sep rest := by
  intro l rest
  induction l with
  | nil =>
    intro _
    simp [splitChList]
  | cons c cs ih =>
    intro h
    have hc : c ≠ sep := fun hh => h (hh ▸ List.mem_cons_self _ _)
    have hcs : sep ∉ cs := fun hh => h (List.mem_cons_of_mem _ hh)
    simp only [List.cons_append, splitChList, if_neg (fun hh : c = sep => hc hh),
      List.append_eq]
    rw [ih hcs]

theorem joinNl_cons_cons (l l' : List Char) (L : List (List Char)) :
    joinNl (l :: l' :: L) = l ++ '\n' :: joinNl (l' :: L) := rfl

theorem splitChList_joinNl : ∀ L : List (List Char), L ≠ [] →
    (∀ l ∈ L, '\n' ∉ l) → splitChList '\n' (joinNl L) = L := by
  intro L
  induction L with
  | nil => intro h _; exact absurd rfl h
  | cons l L' ih =>
    intro _ h
    cases L' with
    | nil =>
      show splitChList '\n' (joinNl [l]) = [l]
      exact splitChList_no_sep '\n' l (h l (List.mem_cons_self _ _))
    | cons l' L'' =>
      rw [joinNl_cons_cons, splitChList_append '\n' l _ (h l (List.mem_cons_self _ _)),
        ih (by simp) (fun x hx => h x (List.mem_cons_of_mem _ hx))]

theorem mem_joinNl : ∀ (L : List (List Char)) (c : Char), c ∈ joinNl L →
    c = '\n' ∨ ∃ l ∈ L, c ∈ l := by
  intro L
  induction L with
  | nil => intro c hc; simp [joinNl] at hc
  | cons l L' ih =>
    intro c hc
    cases L' with
    | nil =>
      right
      exact ⟨l, List.mem_cons_self _ _, hc⟩
    | cons l' L'' =>
      rw [joinNl_cons_cons] at hc
      rcases List.mem_append.mp hc with h | h
      · exact Or.inr ⟨l, List.mem_cons_self _ _, h⟩
      · rcases List.mem_cons.mp h with h' | h'
        · exact Or.inl h'
        · rcases ih c h' with h'' | ⟨x, hx, hcx⟩
          · exact Or.inl h''
          · exact Or.inr ⟨x, List.mem_cons_of_mem _ hx, hcx⟩

theorem noDoubleSpace_tail (c : Char) (cs : List Char)
    (h : noDoubleSpace (c :: cs) = true) : noDoubleSpace cs = true := by
  cases cs with
  | nil => rfl
  | cons d rest =>
    simp only [noDoubleSpace, Bool.and_eq_true] at h
    exact h.2

theorem jsWs_plain (c : Char) (h : plainChar c = true) : jsWs c = decide (c = ' ') :=
  (plainMem_facts c (plainChar_mem c h)).1

theorem splitWs2F_id : ∀ (fuel : Nat) (l : List Char),
    (∀ c ∈ l, plainChar c = true) → noDoubleSpace l = true →
    splitWs2F fuel l = [l] := by
  intro fuel
  induction fuel with
  | zero =>
    intro l _ _
    cases l with
    | nil => rfl
    | cons c cs => rfl
  | succ f ih =>
    intro l hp hnd
    cases l with
    | nil => rfl
    | cons c cs =>
      cases cs with
      | nil =>
        simp only [splitWs2F, Bool.and_false, Bool.false_eq_true, if_false]
      | cons d rest =>
        have hcond : (jsWs c && jsWs d) = false := by
          rw [jsWs_plain c (hp c (List.mem_cons_self _ _)),
            jsWs_plain d (hp d (List.mem_cons_of_mem _ (List.mem_cons_self _ _)))]
          by_cases h1 : c = ' '
          · have hdne : d ≠ ' ' := by
              simp only [noDoubleSpace, Bool.and_eq_true] at hnd
              intro hh
              have := hnd.1
              simp [h1, hh] at this
            simp [hdne]
          · simp [h1]
        simp only [splitWs2F, hcond, Bool.false_eq_true, if_false]
        rw [ih (d :: rest) (fun x hx => hp x (List.mem_cons_of_mem _ hx))
          (noDoubleSpace_tail c (d :: rest) hnd)]

theorem splitWs2_plain (l : List Char) (hp : ∀ c ∈ l, plainChar c = true)
    (hnd : noDoubleSpace l = true) : splitWs2 l = [l] :=
  splitWs2F_id l.length l hp hnd

theorem promptCmdCapture_plain (l : List Char) (h : plainLine l = true) :
    promptCmdCapture l = none := by
  obtain ⟨hne, hall, _, _, _⟩ := plainLine_parts l h
  cases l with
  | nil => rfl
  | cons c cs =>
    have hc : ¬ c = '%' :=
      (plainMem_facts c (plainChar_mem c (hall c (List.mem_cons_self _ _)))).2.1
    simp only [promptCmdCapture]
    rw [if_neg hc]

theorem justPromptTest_plain (l : List Char) (h : plainLine l = true) :
    justPromptTest l = false := by
  obtain ⟨hne, hall, _, _, _⟩ := plainLine_parts l h
  cases l with
  | nil => rfl
  | cons c cs =>
    have hc : ¬ c = '%' :=
      (plainMem_facts c (plainChar_mem c (hall c (List.mem_cons_self _ _)))).2.1
    simp only [justPromptTest]
    rw [if_neg hc]

theorem collapsePass_plain : ∀ L : List (List Char), (∀ l ∈ L, plainLine l = true) →
    collapsePass L = L := by
  intro L
  induction L with
  | nil => intro _; rfl
  | cons l L' ih =>
    intro h
    have hl : plainLine l = true := h l (List.mem_cons_self _ _)
    obtain ⟨hne, hall, _, _, hnd⟩ := plainLine_parts l hl
    simp only [collapsePass, promptCmdCapture_plain l hl, justPromptTest_plain l hl,
      Bool.false_eq_true, if_false]
    rw [splitWs2_plain l hall hnd]
    simp only [List.length_singleton]
    rw [if_neg (by norm_num)]
    rw [ih (fun x hx => h x (List.mem_cons_of_mem _ hx))]

theorem not_mem_plain (line : List Char) (hall : ∀ c ∈ line, plainChar c = true)
    (w : Char) (hw : plainChar w = false) : w ∉ line := by
  intro hm
  rw [hall w hm] at hw
  exact Bool.noConfusion hw

theorem jsTrimList_plain (l : List Char) (h : plainLine l = true) : jsTrimList l = l := by
  obtain ⟨hne, hall, hhead, hlast, _⟩ := plainLine_parts l h
  have h1 : dropWsL l = l := by
    cases l with
    | nil => rfl
    | cons c cs =>
      have hc := hhead c cs rfl
      have hw : jsWs c = false := by
        rw [jsWs_plain c (hall c (List.mem_cons_self _ _))]
        simp [hc]
      unfold dropWsL
      rw [List.dropWhile_cons]
      simp [hw]
  have h2 : l.reverse.dropWhile (fun c => jsWs c) = l.reverse := by
    cases hr : l.reverse with
    | nil => rfl
    | cons c cs =>
      have hc := hlast c cs hr
      have hcmem : c ∈ l := by
        rw [← List.mem_reverse, hr]
        exact List.mem_cons_self _ _
      have hw : jsWs c = false := by
        rw [jsWs_plain c (hall c hcmem)]
        simp [hc]
      rw [List.dropWhile_cons]
      simp [hw]
  unfold jsTrimList
  rw [h1, h2, List.reverse_reverse]

theorem bracketOnly_plain (l : List Char) (h : plainLine l = true) :
    bracketOnly l = false := by
  obtain ⟨hne, hall, _, _, _⟩ := plainLine_parts l h
  cases l with
  | nil => rfl
  | cons c cs =>
    have hc := (plainMem_facts c (plainChar_mem c (hall c (List.mem_cons_self _ _)))).2.2.2.2.2.1
    simp [bracketOnly, hc]

theorem percentOnly_plain (l : List Char) (h : plainLine l = true) :
    percentOnly l = false := by
  obtain ⟨hne, hall, _, _, _⟩ := plainLine_parts l h
  cases l with
  | nil => rfl
  | cons c cs =>
    have hc := (plainMem_facts c (plainChar_mem c (hall c (List.mem_cons_self _ _)))).2.1
    simp [percentOnly, hc]

theorem msAgoTest_plain (l : List Char) (h : plainLine l = true) :
    msAgoTest l = false := by
  obtain ⟨hne, hall, _, _, _⟩ := plainLine_parts l h
  cases l with
  | nil => rfl
  | cons c cs =>
    have hc := (plainMem_facts c (plainChar_mem c (hall c (List.mem_cons_self _ _)))).2.2.1
    simp [msAgoTest, List.takeWhile_cons, hc]

theorem agoAt_upper (l : List Char) (h : agoAt l = true) :
    ∃ c ∈ l, isUpperAlpha c = true := by
  cases l with
  | nil => simp [agoAt] at h
  | cons c1 l1 =>
    cases l1 with
    | nil => simp [agoAt] at h
    | cons c2 l2 =>
      cases l2 with
      | nil => simp [agoAt] at h
      | cons c3 rest =>
        simp only [agoAt] at h
        split at h
        · split at h
          · exact absurd h (by simp)
          · split at h
            · rename_i c rest' heq
              refine ⟨c, ?_, h⟩
              have hcr : c ∈ rest.drop (rest.takeWhile isLowerAlpha).length := by
                rw [heq]
                exact List.mem_cons_self _ _
              exact List.mem_cons_of_mem _ (List.mem_cons_of_mem _
                (List.mem_cons_of_mem _ (List.drop_subset _ _ hcr)))
            · exact Bool.noConfusion h
        · exact Bool.noConfusion h

theorem agoSearch_upper : ∀ l : List Char, agoSearch l = true →
    ∃ c ∈ l, isUpperAlpha c = true := by
  intro l
  induction l with
  | nil => intro h; simp [agoSearch] at h
  | cons c cs ih =>
    intro h
    rw [agoSearch] at h
    rcases Bool.or_eq_true_iff.mp h with h' | h'
    · exact agoAt_upper (c :: cs) h'
    · obtain ⟨d, hd, hu⟩ := ih h'
      exact ⟨d, List.mem_cons_of_mem _ hd, hu⟩

theorem agoSearch_plain (l : List Char) (hall : ∀ c ∈ l, plainChar c = true) :
    agoSearch l = false := by
  cases hs : agoSearch l with
  | false => rfl
  | true =>
    obtain ⟨c, hc, hu⟩ := agoSearch_upper l hs
    have := (plainMem_facts c (plainChar_mem c (hall c hc))).2.2.2.1
    rw [this] at hu
    exact Bool.noConfusion hu

theorem startsList_head_false (c : Char) (cs : List Char) (p : Char) (ps : List Char)
    (h : ¬ c = p) : startsList (c :: cs) (p :: ps) = false := by
  simp [startsList, h]

theorem progressTest_plain (l : List Char) (h : plainLine l = true) :
    progressTest l = false := by
  obtain ⟨hne, hall, _, _, _⟩ := plainLine_parts l h
  cases l with
  | nil => rfl
  | cons c cs =>
    have f := plainMem_facts c (plainChar_mem c (hall c (List.mem_cons_self _ _)))
    simp only [progressTest]
    rw [show "Preparing".toList = 'P' :: "reparing".toList from rfl,
      show "Writing".toList = 'W' :: "riting".toList from rfl,
      show "Starting".toList = 'S' :: "tarting".toList from rfl,
      show "Installing".toList = 'I' :: "nstalling".toList from rfl,
      show "Joining".toList = 'J' :: "oining".toList from rfl,
      startsList_head_false c cs 'P' _ f.2.2.2.2.2.2.1,
      startsList_head_false c cs 'W' _ f.2.2.2.2.2.2.2.1,
      startsList_head_false c cs 'S' _ f.2.2.2.2.2.2.2.2.1,
      startsList_head_false c cs 'I' _ f.2.2.2.2.2.2.2.2.2.1,
      startsList_head_false c cs 'J' _ f.2.2.2.2.2.2.2.2.2.2]
    rfl

theorem arrowPathTest_plain (l : List Char) (h : plainLine l = true) :
    arrowPathTest l = false := by
  obtain ⟨hne, hall, _, _, _⟩ := plainLine_parts l h
  cases l with
  | nil => rfl
  | cons c cs =>
    have hc := (plainMem_facts c (plainChar_mem c (hall c (List.mem_cons_self _ _)))).2.2.2.2.1
    simp only [arrowPathTest]
    rw [if_neg (by simp [hc])]

theorem adjDistinct_get : ∀ L : List (List Char), adjDistinct L = true →
    ∀ (j : Nat) (a b : List Char), L.get? j = some a → L.get? (j + 1) = some b → a ≠ b := by
  intro L
  induction L with
  | nil =>
    intro _ j a b ha _
    simp at ha
  | cons x L' ih =>
    intro h j a b ha hb
    cases L' with
    | nil =>
      rcases j with - | j' <;> simp at hb
    | cons y L'' =>
      have hd : ¬ x = y ∧ adjDistinct (y :: L'') = true := by
        simpa [adjDistinct, Bool.and_eq_true] using h
      cases j with
      | zero =>
        simp only [List.get?_cons_zero, Option.some.injEq] at ha
        simp only [List.get?_cons_succ, List.get?_cons_zero, Option.some.injEq] at hb
        rw [← ha, ← hb]
        exact hd.1
      | succ j' =>
        exact ih hd.2 j' a b (by simpa using ha) (by simpa using hb)

theorem keepLine_plain (L : List (List Char)) (hallL : ∀ x ∈ L, plainLine x = true)
    (hadj : adjDistinct L = true) (i : Nat) (line : List Char)
    (hget : L.get? i = some line) : keepLine L i line = true := by
  have hmemL : line ∈ L := List.get?_mem hget
  have hplain := hallL line hmemL
  obtain ⟨hne, hall, _, _, _⟩ := plainLine_parts line hplain
  have htr := jsTrimList_plain line hplain
  have hie : line.isEmpty = false := by
    cases line with
    | nil => exact absurd rfl hne
    | cons c cs => rfl
  have hAtuin : containsList line "Atuin v".toList = false :=
    containsList_false_of_missing _ _ 'A' (by decide) (not_mem_plain line hall 'A' (by decide))
  have hEsc : containsList line "<esc>: exit".toList = false :=
    containsList_false_of_missing _ _ '<' (by decide) (not_mem_plain line hall '<' (by decide))
  have hSearch : containsList line "Search│Inspect".toList = false :=
    containsList_false_of_missing _ _ 'S' (by decide) (not_mem_plain line hall 'S' (by decide))
  have hHist : containsList line "history count:".toList = false :=
    containsList_false_of_missing _ _ ':' (by decide) (not_mem_plain line hall ':' (by decide))
  have hGlob : containsList line "[GLOBAL]".toList = false :=
    containsList_false_of_missing _ _ '[' (by decide) (not_mem_plain line hall '[' (by decide))
  have hbr := bracketOnly_plain line hplain
  have hpc := percentOnly_plain line hplain
  have hms := msAgoTest_plain line hplain
  have hago := agoSearch_plain line hall
  have hprog := progressTest_plain line hplain
  have harrow := arrowPathTest_plain line hplain
  have hdup : (if 0 < i then
      match L.get? (i - 1) with
      | some prev => jsTrimList prev = line && 10 < line.length
      | none => false
    else false) = false := by
    cases i with
    | zero => simp
    | succ j =>
      rw [if_pos (Nat.succ_pos j)]
      simp only [Nat.add_sub_cancel]
      cases hp : L.get? j with
      | none => rfl
      | some prev =>
        have hpplain := hallL prev (List.get?_mem hp)
        have hprevtr := jsTrimList_plain prev hpplain
        have hneq : prev ≠ line := adjDistinct_get L hadj j prev line hp hget
        simp [hprevtr, hneq]
  simp only [keepLine, htr, hie, hbr, hpc, hAtuin, hEsc, hSearch, hHist, hGlob, hms, hago,
    hprog, harrow, Bool.false_or, Bool.or_self, Bool.false_and, Bool.false_eq_true,
    if_false, Bool.and_eq_true]
  rw [hdup]
  simp

theorem filterIdx_plain (L : List (List Char)) (hallL : ∀ x ∈ L, plainLine x = true)
    (hadj : adjDistinct L = true) :
    ∀ (suffix : List (List Char)) (i : Nat), L.drop i = suffix →
      filterIdx L i suffix = suffix := by
  intro suffix
  induction suffix with
  | nil => intro i _; rfl
  | cons line rest ihs =>
    intro i hdrop
    have hget : L.get? i = some line := by
      have h0 := List.get?_drop L i 0
      rw [hdrop] at h0
      simpa using h0.symm
    have hrest : L.drop (i + 1) = rest := by
      have h1 : (L.drop i).tail = L.drop (i + 1) := by
        rw [List.tail_drop]
      rw [hdrop] at h1
      simpa using h1.symm
    simp only [filterIdx, keepLine_plain L hallL hadj i line hget, if_true]
    rw [ihs (i + 1) hrest]

theorem filterPass_plain (L : List (List Char)) (hallL : ∀ x ∈ L, plainLine x = true)
    (hadj : adjDistinct L = true) : filterPass L = L :=
  filterIdx_plain L hallL hadj L 0 (by simp)

theorem noTripleNl_tail (c : Char) (cs : List Char)
    (h : noTripleNl (c :: cs) = true) : noTripleNl cs = true := by
  cases cs with
  | nil => rfl
  | cons d rest =>
    cases rest with
    | nil => rfl
    | cons e rest' =>
      simp only [noTripleNl, Bool.and_eq_true] at h
      exact h.2

theorem noTripleNl_cons (c : Char) (cs : List Char) (hc : c ≠ '\n')
    (h : noTripleNl cs = true) : noTripleNl (c :: cs) = true := by
  cases cs with
  | nil => rfl
  | cons d rest =>
    cases rest with
    | nil => rfl
    | cons e rest' =>
      simp only [noTripleNl, Bool.and_eq_true]
      exact ⟨by simp [hc], h⟩

theorem noTripleNl_of_no_nl : ∀ cs : List Char, (∀ c ∈ cs, c ≠ '\n') →
    noTripleNl cs = true := by
  intro cs
  induction cs with
  | nil => intro _; rfl
  | cons c cs' ih =>
    intro h
    exact noTripleNl_cons c cs' (h c (List.mem_cons_self _ _))
      (ih (fun d hd => h d (List.mem_cons_of_mem _ hd)))

theorem noTripleNl_append : ∀ (l rest : List Char), (∀ c ∈ l, c ≠ '\n') →
    noTripleNl rest = true → noTripleNl (l ++ rest) = true := by
  intro l rest
  induction l with
  | nil => intro _ hr; exact hr
  | cons c l' ih =>
    intro hl hr
    exact noTripleNl_cons c (l' ++ rest) (hl c (List.mem_cons_self _ _))
      (ih (fun d hd => hl d (List.mem_cons_of_mem _ hd)) hr)

theorem noTripleNl_nl_cons (inner : List Char) (hr : noTripleNl inner = true)
    (hhead : ∀ d rest, inner = d :: rest → d ≠ '\n') :
    noTripleNl ('\n' :: inner) = true := by
  cases inner with
  | nil => rfl
  | cons d rest =>
    cases rest with
    | nil => rfl
    | cons e rest' =>
      simp only [noTripleNl, Bool.and_eq_true]
      refine ⟨?_, hr⟩
      have hd := hhead d _ rfl
      simp [hd]

theorem joinNl_noTriple : ∀ L : List (List Char),
    (∀ l ∈ L, l ≠ [] ∧ ∀ c ∈ l, c ≠ '\n') → noTripleNl (joinNl L) = true := by
  intro L
  induction L with
  | nil => intro _; rfl
  | cons l L' ih =>
    intro h
    obtain ⟨hlne, hlnl⟩ := h l (List.mem_cons_self _ _)
    cases L' with
    | nil => exact noTripleNl_of_no_nl l hlnl
    | cons l' L'' =>
      rw [joinNl_cons_cons]
      refine noTripleNl_append l _ hlnl ?_
      refine noTripleNl_nl_cons _ (ih (fun x hx => h x (List.mem_cons_of_mem _ hx))) ?_
      intro d rest hjoin
      obtain ⟨hl'ne, hl'nl⟩ := h l' (List.mem_cons_of_mem _ (List.mem_cons_self _ _))
      cases hl' : l' with
      | nil => exact absurd hl' hl'ne
      | cons c0 cs0 =>
        have hd : d = c0 := by
          cases L'' with
          | nil =>
            rw [show joinNl (l' :: []) = l' from rfl, hl'] at hjoin
            exact ((List.cons.injEq _ _ _ _).mp hjoin).1.symm
          | cons l'' L''' =>
            rw [joinNl_cons_cons, hl'] at hjoin
            simp only [List.cons_append] at hjoin
            exact ((List.cons.injEq _ _ _ _).mp hjoin).1.symm
        rw [hd]
        exact hl'nl c0 (hl' ▸ List.mem_cons_self _ _)

theorem collapseNlF_id : ∀ (fuel : Nat) (cs : List Char), noTripleNl cs = true →
    collapseNlF fuel cs = cs := by
  intro fuel
  induction fuel with
  | zero =>
    intro cs _
    cases cs with
    | nil => rfl
    | cons c cs' => rfl
  | succ f ih =>
    intro cs h
    cases cs with
    | nil => rfl
    | cons c cs' =>
      cases cs' with
      | nil =>
        simp only [collapseNlF, Bool.and_false, Bool.false_eq_true, if_false]
      | cons d cs'' =>
        cases cs'' with
        | nil =>
          simp only [collapseNlF, Bool.and_false, Bool.false_eq_true, if_false]
          exact congrArg (c :: ·) (ih [d] rfl)
        | cons e rest =>
          have hw : (c = '\n' && (d = '\n' && e = '\n')) = false := by
            simp only [noTripleNl, Bool.and_eq_true] at h
            have h1 := h.1
            rw [Bool.not_eq_true'] at h1
            rw [← Bool.and_assoc]
            exact h1
          simp only [collapseNlF, hw, Bool.false_eq_true, if_false]
          exact congrArg (c :: ·) (ih _ (noTripleNl_tail c _ h))

theorem collapseNl_joinNl_plain (L : List (List Char))
    (h : ∀ l ∈ L, plainLine l = true) : collapseNl (joinNl L) = joinNl L := by
  apply collapseNlF_id
  apply joinNl_noTriple
  intro l hl
  obtain ⟨hne, hall, _, _, _⟩ := plainLine_parts l (h l hl)
  refine ⟨hne, fun c hc => ?_⟩
  intro hcnl
  have := hall c hc
  rw [hcnl] at this
  exact absurd this (by decide)

theorem strip_plain_id (L : List (List Char)) (h : plainText L = true) :
    stripAnsiCodes ⟨joinNl L⟩ = ⟨joinNl L⟩ := by
  simp only [plainText, Bool.and_eq_true] at h
  obtain ⟨⟨hne, hallb⟩, hadj⟩ := h
  have hall : ∀ l ∈ L, plainLine l = true := List.all_eq_true.mp hallb
  have hLne : L ≠ [] := by
    intro hh
    rw [hh] at hne
    simp at hne
  have hlines : ∀ l ∈ L, '\n' ∉ l := by
    intro l hl hm
    have := (plainLine_parts l (hall l hl)).2.1 '\n' hm
    exact absurd this (by decide)
  have hchars : ∀ c ∈ joinNl L, notTrigger c = true := by
    intro c hc
    rcases mem_joinNl L c hc with h' | ⟨l, hl, hcl⟩
    · rw [h']
      exact notTrigger_nl
    · exact plainChars_notTrigger c
        (plainChar_mem c ((plainLine_parts l (hall l hl)).2.1 c hcl))
  show String.mk (collapseNl (joinNl (filterPass (collapsePass (splitChList '\n'
      (stripControlSequences (String.mk (joinNl L)).toList)))))) = String.mk (joinNl L)
  rw [show (String.mk (joinNl L)).toList = joinNl L from rfl,
    stripControlSequences_plain _ hchars, splitChList_joinNl L hLne hlines,
    collapsePass_plain L hall, filterPass_plain L hall hadj,
    collapseNl_joinNl_plain L hall]

/-- C8 (amended): the stripper is not idempotent in general (see the
counterexample); it is idempotent on already-clean text, where it acts as
the identity — here: any non-empty list of lines over lower-case letters
and single interior spaces, with no two adjacent equal lines, joined by
newlines. -/
theorem C8_idempotent_on_plain_text (L : List (List Char)) (h : plainText L = true) :
    stripAnsiCodes (stripAnsiCodes ⟨joinNl L⟩) = stripAnsiCodes ⟨joinNl L⟩ := by
  rw [strip_plain_id L h]
  exact strip_plain_id L h

theorem C8_idempotent_witness :
    plainText ["hello world".toList, "done".toList] = true ∧
    stripAnsiCodes (stripAnsiCodes ⟨joinNl ["hello world".toList, "done".toList]⟩) =
      stripAnsiCodes ⟨joinNl ["hello world".toList, "done".toList]⟩ :=
  ⟨by decide, C8_idempotent_on_plain_text ["hello world".toList, "done".toList] (by decide)⟩

end Cast2MD
